import Mathlib

/-!
Verification of the spell-checking engine against its specification.

This file is a shallow embedding of the engine's core components:

* the lexicon (class Dictionary, file src/dictionary.cpp): exact word set,
  frequency map, prefix trie and phonetic buckets, together with the
  operations addWord, removeWord, containsWord, getWordFrequency,
  getWordsWithPrefix, getPhoneticMatches, generatePhoneticCode,
  saveToFile and loadFromFile;
* the suggester (class SuggestionEngine, file src/suggestion_engine.cpp):
  the candidate generators, the candidate pool, rankCandidates,
  generateSuggestions and calculateEditDistance;
* the tokenizer (class TextProcessor, file text_processor.cpp):
  extractWordsWithLines together with its word pattern, the ignore
  predicates and normalizeWord.

Modelling conventions.  C++ strings are lists of byte values (List Nat);
std::unordered_set and std::unordered_map are association lists kept in
insertion order (their C++ iteration order is unspecified, the model fixes
insertion order); std::sort is modelled as an insertion sort that orders
the list by the comparator (stable on ties); uint32_t and size_t values
are Nat with an explicit mod 2 ^ 32 or mod 2 ^ 64 where C++ would wrap or
convert; code paths that throw (std::stoul inside loadFromFile) are
modelled in Except; file contents are passed as the list of lines that
std::getline would produce.  The double-valued fused score of the
suggester is built from std::log and cannot be reproduced exactly, so the
ranking functions are parametric in the score function: every theorem
about them holds for an arbitrary score, hence for the concrete one.
-/

/-- Byte strings: a C++ std::string as the list of its character codes. -/
abbrev Str := List Nat

/-- Conversion of a Lean string literal to its list of ASCII codes, used to
write concrete inputs readably. -/
def strM (s : String) : Str := s.toList.map Char.toNat

/-- Model of isspace in the C locale: tab through carriage return, space. -/
def isSpaceB (c : Nat) : Bool := (9 ≤ c && c ≤ 13) || c == 32

/-- Model of isdigit in the C locale. -/
def isDigitB (c : Nat) : Bool := 48 ≤ c && c ≤ 57

/-- Model of isupper in the C locale. -/
def isUpperB (c : Nat) : Bool := 65 ≤ c && c ≤ 90

/-- Model of islower in the C locale. -/
def isLowerB (c : Nat) : Bool := 97 ≤ c && c ≤ 122

/-- Model of isalpha in the C locale. -/
def isAlphaB (c : Nat) : Bool := isUpperB c || isLowerB c

/-- Model of isalnum in the C locale. -/
def isAlnumB (c : Nat) : Bool := isAlphaB c || isDigitB c

/-- Model of tolower in the C locale. -/
def toLowerB (c : Nat) : Nat := if isUpperB c then c + 32 else c

/-- Model of toupper in the C locale. -/
def toUpperB (c : Nat) : Nat := if isLowerB c then c - 32 else c

/-- Lowercasing a whole string, as std transform with tolower does. -/
def toLowerStr (w : Str) : Str := w.map toLowerB

/-- Lookup in an association list (the model of unordered_map find). -/
def assocLookup {κ α : Type} [DecidableEq κ] : List (κ × α) → κ → Option α
  | [], _ => none
  | (k2, v) :: rest, k => if k2 = k then some v else assocLookup rest k

/-- Updating an association list at a key: replace the first entry with that
key, append a new entry when the key is absent (unordered_map operator
bracket followed by an assignment). -/
def assocSet {κ α : Type} [DecidableEq κ] : List (κ × α) → κ → α → List (κ × α)
  | [], k, v => [(k, v)]
  | (k2, v2) :: rest, k, v =>
      if k2 = k then (k, v) :: rest else (k2, v2) :: assocSet rest k v

/-- Removing the entry of a key from an association list (unordered_map
erase; keys are unique in every reachable state). -/
def assocErase {κ α : Type} [DecidableEq κ] : List (κ × α) → κ → List (κ × α)
  | [], _ => []
  | (k2, v2) :: rest, k => if k2 = k then rest else (k2, v2) :: assocErase rest k

/-- Insertion step of the sort modelling std::sort: place the element before
the first list element it may precede under the comparator. -/
def insSortIns {α : Type} (le : α → α → Bool) (a : α) : List α → List α
  | [] => [a]
  | b :: l => if le a b then a :: b :: l else b :: insSortIns le a l

/-- Model of std::sort with a strict comparator cmp: an insertion sort by
the non-strict relation le a b meaning not cmp b a.  Any output of
std::sort is ordered this way; the model fixes the stable one. -/
def insSortLe {α : Type} (le : α → α → Bool) : List α → List α
  | [] => []
  | a :: l => insSortIns le a (insSortLe le l)

/-- Tail of the std::unique model: drop elements equal to the last kept
one, keep the first differing element and continue from it. -/
def dedupAdjAux {α : Type} [DecidableEq α] (prev : α) : List α → List α
  | [] => []
  | b :: l => if b = prev then dedupAdjAux prev l else b :: dedupAdjAux b l

/-- Model of std::unique on a range: drop adjacent duplicates, keeping the
first element of each run. -/
def dedupAdj {α : Type} [DecidableEq α] : List α → List α
  | [] => []
  | a :: l => a :: dedupAdjAux a l

/-- Lexicographic comparison of byte strings: the non-strict relation
induced by the strict operator less-than of std::string. -/
def lexLe : Str → Str → Bool
  | [], _ => true
  | _ :: _, [] => false
  | x :: xs, y :: ys => if x < y then true else if y < x then false else lexLe xs ys

/-- Trie node (struct TrieNode of dictionary.h): children keyed by
character (unordered_map, modelled in insertion order), a terminal flag
and the frequency stored at terminal nodes. -/
inductive TrieNode where
  | mk (children : List (Nat × TrieNode)) (isWord : Bool) (frequency : Nat)

/-- Children of a trie node. -/
def TrieNode.children : TrieNode → List (Nat × TrieNode)
  | .mk cs _ _ => cs

/-- Terminal flag of a trie node. -/
def TrieNode.isWord : TrieNode → Bool
  | .mk _ b _ => b

/-- Frequency stored at a trie node. -/
def TrieNode.frequency : TrieNode → Nat
  | .mk _ _ f => f

/-- Freshly constructed trie node: no children, not a word, frequency 0. -/
def TrieNode.empty : TrieNode := .mk [] false 0

/-- Model of Dictionary::insertIntoTrie: walk the word, creating missing
children, and mark the final node as a word with the given frequency. -/
def trieInsert : TrieNode → Str → Nat → TrieNode
  | t, [], freq => .mk t.children true freq
  | t, c :: rest, freq =>
      match assocLookup t.children c with
      | some child => .mk (assocSet t.children c (trieInsert child rest freq)) t.isWord t.frequency
      | none => .mk (t.children ++ [(c, trieInsert TrieNode.empty rest freq)]) t.isWord t.frequency

/-- Descending the trie along a string, as the navigation loop of
Dictionary::getWordsWithPrefix does; none when a character is missing. -/
def trieFind : TrieNode → Str → Option TrieNode
  | t, [] => some t
  | t, c :: rest =>
      match assocLookup t.children c with
      | none => none
      | some child => trieFind child rest

mutual
/-- Model of Dictionary::collectWordsWithPrefix: return unchanged once the
result list has reached maxResults, otherwise append the current path when
the node is terminal and recurse into the children in order. -/
def collectWords : TrieNode → Str → List Str → Nat → List Str
  | t, pre, res, maxResults =>
    if res.length ≥ maxResults then res
    else
      match t with
      | .mk cs iw _ => collectChildren cs pre (if iw then res ++ [pre] else res) maxResults
/-- Child loop of Dictionary::collectWordsWithPrefix. -/
def collectChildren : List (Nat × TrieNode) → Str → List Str → Nat → List Str
  | [], _, res, _ => res
  | (c, child) :: rest, pre, res, maxResults =>
      collectChildren rest pre (collectWords child (pre ++ [c]) res maxResults) maxResults
end

mutual
/-- Every word marked terminal in the trie below a node, each prefixed with
the path leading to the node.  This is the mathematical content of the
trie, used to state invariants; it is not a routine of the source. -/
def trieWordsNode : TrieNode → Str → List Str
  | .mk cs iw _, pre => (if iw then [pre] else []) ++ trieWordsChildren cs pre
/-- Child part of trieWordsNode. -/
def trieWordsChildren : List (Nat × TrieNode) → Str → List Str
  | [], _ => []
  | (c, child) :: rest, pre => trieWordsNode child (pre ++ [c]) ++ trieWordsChildren rest pre
end

/-- State of class Dictionary: the trie root, the exact word set
(unordered_set, modelled in insertion order), the frequency map, the
phonetic buckets and the word count. -/
structure Dictionary where
  trieRoot : TrieNode
  wordSet : List Str
  wordFrequencies : List (Str × Nat)
  phoneticMap : List (Str × List Str)
  wordCount : Nat

/-- The state the Dictionary constructor (and clear) produces. -/
def Dictionary.empty : Dictionary :=
  { trieRoot := TrieNode.empty, wordSet := [], wordFrequencies := [],
    phoneticMap := [], wordCount := 0 }

/-- Digit of the Soundex-like code for one lowercased character, none for
the characters the switch of Dictionary::generatePhoneticCode skips. -/
def phoneticDigit (c : Nat) : Option Nat :=
  if c = 98 || c = 102 || c = 112 || c = 118 then some 49
  else if c = 99 || c = 103 || c = 106 || c = 107 || c = 113 || c = 115 || c = 120 || c = 122 then some 50
  else if c = 100 || c = 116 then some 51
  else if c = 108 then some 52
  else if c = 109 || c = 110 then some 53
  else if c = 114 then some 54
  else none

/-- Consonant loop of Dictionary::generatePhoneticCode: while the code is
shorter than 4, map each further character to its digit, skip the rest,
and do not append a digit equal to the last emitted character. -/
def phoneticLoop : Str → Str → Str
  | [], code => code
  | c :: rest, code =>
    if code.length < 4 then
      match phoneticDigit (toLowerB c) with
      | none => phoneticLoop rest code
      | some d =>
          if code.getLast? = some d then phoneticLoop rest code
          else phoneticLoop rest (code ++ [d])
    else code

/-- Model of Dictionary::generatePhoneticCode: empty for the empty word,
otherwise the uppercased first character, the digits of the consonant
loop, right-padded with the zero digit to length 4. -/
def generatePhoneticCode (word : Str) : Str :=
  match word with
  | [] => []
  | c :: rest =>
      let code := phoneticLoop rest [toUpperB c]
      code ++ List.replicate (4 - code.length) 48

/-- Model of Dictionary::addWord: ignore the empty word; otherwise
lowercase, insert into the exact set, store the frequency, insert into the
trie and push the word onto its phonetic bucket (the push is unconditional
in the source); increment the count only for a new word. -/
def addWord (d : Dictionary) (word : Str) (frequency : Nat) : Dictionary :=
  if word = [] then d
  else
    let w := toLowerStr word
    let isNew := !(d.wordSet.contains w)
    { trieRoot := trieInsert d.trieRoot w frequency
      wordSet := if d.wordSet.contains w then d.wordSet else d.wordSet ++ [w]
      wordFrequencies := assocSet d.wordFrequencies w frequency
      phoneticMap :=
        let code := generatePhoneticCode w
        match assocLookup d.phoneticMap code with
        | some bucket => assocSet d.phoneticMap code (bucket ++ [w])
        | none => d.phoneticMap ++ [(code, [w])]
      wordCount := if isNew then d.wordCount + 1 else d.wordCount }

/-- Model of Dictionary::removeWord: false when the lowercased word is not
in the exact set; otherwise erase it from the set, the frequency map and
its phonetic bucket (deleting the bucket when it becomes empty) and
decrement the count.  The source never touches the trie here. -/
def removeWord (d : Dictionary) (word : Str) : Dictionary × Bool :=
  let w := toLowerStr word
  if d.wordSet.contains w then
    let code := generatePhoneticCode w
    let bucket := match assocLookup d.phoneticMap code with
      | some b => b
      | none => []
    let bucket2 := bucket.filter (fun u => u != w)
    ({ trieRoot := d.trieRoot
       wordSet := d.wordSet.erase w
       wordFrequencies := assocErase d.wordFrequencies w
       phoneticMap :=
         if bucket2.isEmpty then assocErase d.phoneticMap code
         else assocSet d.phoneticMap code bucket2
       wordCount := d.wordCount - 1 }, true)
  else (d, false)

/-- Model of Dictionary::containsWord: membership of the lowercased word in
the exact set. -/
def containsWord (d : Dictionary) (word : Str) : Bool :=
  d.wordSet.contains (toLowerStr word)

/-- Model of Dictionary::getWordFrequency: the stored frequency of the
lowercased word, 0 when absent. -/
def getWordFrequency (d : Dictionary) (word : Str) : Nat :=
  match assocLookup d.wordFrequencies (toLowerStr word) with
  | some f => f
  | none => 0

/-- Model of Dictionary::getWordsWithPrefix: lowercase the prefix, descend
the trie (empty on a missing character), collect up to maxResults words
and sort them by frequency descending (std::sort with the comparator
frequency-greater; the model's sort is stable on ties). -/
def getWordsWithPrefix (d : Dictionary) (pfx : Str) (maxResults : Nat) : List Str :=
  let p := toLowerStr pfx
  match trieFind d.trieRoot p with
  | none => []
  | some t =>
      insSortLe (fun a b => decide (getWordFrequency d b ≤ getWordFrequency d a))
        (collectWords t p [] maxResults)

/-- Model of Dictionary::getPhoneticMatches: the bucket of the word's code,
empty when absent.  The source does not lowercase here. -/
def getPhoneticMatches (d : Dictionary) (word : Str) : List Str :=
  match assocLookup d.phoneticMap (generatePhoneticCode word) with
  | some b => b
  | none => []

/-- Model of Dictionary::getAllWords: the exact set as a list. -/
def getAllWords (d : Dictionary) : List Str := d.wordSet

/-- Model of Dictionary::size: the stored word count. -/
def dictSize (d : Dictionary) : Nat := d.wordCount

/-- Digit-accumulation fold that the numeric conversion performs: the value
of a digit string read left to right. -/
def digitsVal (ds : Str) : Nat := ds.foldl (fun a c => a * 10 + (c - 48)) 0

/-- Model of std::stoul in base 10 on a 64-bit unsigned long: skip
whitespace, read an optional sign, then the longest digit prefix.  With no
digit it throws invalid argument, on a value beyond the 64-bit range it
throws out of range (both modelled as error); a minus sign negates
modulo 2 ^ 64 as strtoul does.  Trailing non-digits are ignored. -/
def stoulModel (s : Str) : Except Unit Nat :=
  let s1 := s.dropWhile isSpaceB
  let neg : Bool := s1.headD 0 == 45
  let s2 := if s1.headD 0 == 43 || s1.headD 0 == 45 then s1.drop 1 else s1
  let ds := s2.takeWhile isDigitB
  if ds.isEmpty then .error ()
  else
    let v := digitsVal ds
    if 2 ^ 64 ≤ v then .error ()
    else .ok (if neg then (2 ^ 64 - v) % 2 ^ 64 else v)

/-- Decimal digits of a number, most significant first, written with a
structural fuel argument so that it evaluates; the fuel never runs out
when it exceeds the number (auxiliary of natToDec). -/
def natToDecAux : Nat → Nat → Str → Str
  | 0, _, acc => acc
  | fuel + 1, n, acc =>
      if n < 10 then (48 + n) :: acc
      else natToDecAux fuel (n / 10) ((48 + n % 10) :: acc)

/-- Decimal rendering of a Nat, as the stream insertion of an unsigned
integer prints it. -/
def natToDec (n : Nat) : Str := natToDecAux (n + 1) n []

/-- Model of Dictionary::saveToFile on an open file: one line per entry of
the frequency map, the word, a colon, the decimal frequency. -/
def saveLines (d : Dictionary) : List Str :=
  d.wordFrequencies.map (fun wf => wf.1 ++ 58 :: natToDec wf.2)

/-- Model of one iteration of the read loop of Dictionary::loadFromFile:
erase whitespace, skip an empty line, split at the first colon when there
is one (the frequency conversion may throw, which propagates), otherwise
add the whole line with frequency 1.  The conversion result is cast to
uint32_t, hence the mod 2 ^ 32. -/
def processLine (d : Dictionary) (line : Str) : Except Unit Dictionary :=
  let l := line.filter (fun c => !(isSpaceB c))
  if l.isEmpty then .ok d
  else if l.contains 58 then
    let w := l.takeWhile (fun c => c != 58)
    let fs := (l.dropWhile (fun c => c != 58)).drop 1
    match stoulModel fs with
    | .error e => .error e
    | .ok v => .ok (addWord d w (v % 2 ^ 32))
  else .ok (addWord d l 1)

/-- Line loop of Dictionary::loadFromFile. -/
def loadLinesAux : List Str → Dictionary → Except Unit Dictionary
  | [], d => .ok d
  | line :: rest, d =>
      match processLine d line with
      | .error e => .error e
      | .ok d2 => loadLinesAux rest d2

/-- Model of Dictionary::loadFromFile on a file that opened: clear the
state, then process each line; ok with the loaded state when the loop
completes (the source then returns true), error when a line's frequency
conversion throws and the exception escapes. -/
def loadFromFile (lines : List Str) : Except Unit Dictionary :=
  loadLinesAux lines Dictionary.empty

/-- Cell of the dynamic-programming table of
SuggestionEngine::calculateEditDistance: row i column j holds the distance
between the first i characters of the first word and the first j of the
second, by the recurrence the fill loop implements. -/
def dpCell (w1 w2 : Str) : Nat → Nat → Nat
  | 0, j => j
  | i + 1, 0 => i + 1
  | i + 1, j + 1 =>
    if w1.getD i 0 = w2.getD j 0 then dpCell w1 w2 i j
    else 1 + min (min (dpCell w1 w2 i (j + 1)) (dpCell w1 w2 (i + 1) j)) (dpCell w1 w2 i j)

/-- Model of SuggestionEngine::calculateEditDistance: the bottom-right cell
of the table. -/
def calculateEditDistance (w1 w2 : Str) : Nat := dpCell w1 w2 w1.length w2.length

/-- Standard head recursion of the Levenshtein distance, used to reason
about the table; lev_eq_dpCell relates it to the cells. -/
def lev : Str → Str → Nat
  | [], ys => ys.length
  | x :: xs, [] => (x :: xs).length
  | x :: xs, y :: ys =>
    if x = y then lev xs ys
    else 1 + min (min (lev xs (y :: ys)) (lev (x :: xs) ys)) (lev xs ys)

/-- Edit scripts: EditSeq xs ys n states that xs transforms into ys by a
(left to right) alignment of cost n made of kept characters, deletions,
insertions and substitutions.  Used to prove the triangle inequality. -/
inductive EditSeq : Str → Str → Nat → Prop where
  | nil : EditSeq [] [] 0
  | keep (c : Nat) {xs ys : Str} {n : Nat} : EditSeq xs ys n → EditSeq (c :: xs) (c :: ys) n
  | del (c : Nat) {xs ys : Str} {n : Nat} : EditSeq xs ys n → EditSeq (c :: xs) ys (n + 1)
  | ins (c : Nat) {xs ys : Str} {n : Nat} : EditSeq xs ys n → EditSeq xs (c :: ys) (n + 1)
  | sub (a b : Nat) {xs ys : Str} {n : Nat} : EditSeq xs ys n → EditSeq (a :: xs) (b :: ys) (n + 1)

/-- The 26 lowercase letters, the alphabet string of the candidate
generators of SuggestionEngine. -/
def alphabetM : Str := (List.range 26).map (fun k => 97 + k)

/-- Model of SuggestionEngine::generateDeletionCandidates. -/
def generateDeletionCandidates (w : Str) : List Str :=
  (List.range w.length).map (fun i => w.take i ++ w.drop (i + 1))

/-- Model of SuggestionEngine::generateInsertionCandidates. -/
def generateInsertionCandidates (w : Str) : List Str :=
  ((List.range (w.length + 1)).map
    (fun i => alphabetM.map (fun c => w.take i ++ c :: w.drop i))).flatten

/-- Model of SuggestionEngine::generateSubstitutionCandidates. -/
def generateSubstitutionCandidates (w : Str) : List Str :=
  ((List.range w.length).map
    (fun i => (alphabetM.filter (fun c => c != w.getD i 0)).map
      (fun c => w.set i c))).flatten

/-- Model of SuggestionEngine::generateTranspositionCandidates; the source
is only ever called with a non-empty word (its loop bound underflows on
the empty word, which the engine's empty-word guard rules out). -/
def generateTranspositionCandidates (w : Str) : List Str :=
  (List.range (w.length - 1)).map
    (fun i => w.take i ++ w.getD (i + 1) 0 :: w.getD i 0 :: w.drop (i + 2))

/-- Model of SuggestionEngine::generateSplitCandidates: split at each inner
position and keep first part, a space, second part when both parts are in
the lexicon. -/
def generateSplitCandidates (d : Dictionary) (w : Str) : List Str :=
  (List.range' 1 (w.length - 1)).filterMap
    (fun i =>
      if containsWord d (w.take i) && containsWord d (w.drop i) then
        some (w.take i ++ 32 :: w.drop i)
      else none)

/-- Model of SuggestionEngine::generatePhoneticSuggestions. -/
def generatePhoneticSuggestions (d : Dictionary) (w : Str) : List Str :=
  getPhoneticMatches d w

/-- Model of SuggestionEngine::generatePrefixSuggestions: for each length
from min of the word length and 3 up to the word length, the words with
that prefix capped at 20, concatenated, sorted lexicographically and with
adjacent duplicates removed. -/
def generatePrefixSuggestions (d : Dictionary) (w : Str) : List Str :=
  let lo := min w.length 3
  let all := ((List.range' lo (w.length + 1 - lo)).map
    (fun len => getWordsWithPrefix d (w.take len) 20)).flatten
  dedupAdj (insSortLe lexLe all)

/-- Insertion into the candidate set (unordered_set, modelled as the list
of distinct candidates in insertion order). -/
def insertNew (pool : List Str) (c : Str) : List Str :=
  if pool.contains c then pool else pool ++ [c]

/-- One of the five filtered loops of
SuggestionEngine::generateSuggestions: insert the candidates that the
lexicon contains. -/
def poolAddFiltered (d : Dictionary) (pool : List Str) (cs : List Str) : List Str :=
  cs.foldl (fun p c => if containsWord d c then insertNew p c else p) pool

/-- One of the two unfiltered loops of
SuggestionEngine::generateSuggestions: insert every candidate. -/
def poolAddAll (pool : List Str) (cs : List Str) : List Str :=
  cs.foldl insertNew pool

/-- Candidate pool of SuggestionEngine::generateSuggestions: the seven
generator outputs combined in source order, the edit-based five filtered
by lexicon membership, the phonetic and prefix ones kept as they are. -/
def candidatePool (d : Dictionary) (w : Str) : List Str :=
  let p1 := poolAddFiltered d [] (generateDeletionCandidates w)
  let p2 := poolAddFiltered d p1 (generateInsertionCandidates w)
  let p3 := poolAddFiltered d p2 (generateSubstitutionCandidates w)
  let p4 := poolAddFiltered d p3 (generateTranspositionCandidates w)
  let p5 := poolAddFiltered d p4 (generateSplitCandidates d w)
  let p6 := poolAddAll p5 (generatePhoneticSuggestions d w)
  poolAddAll p6 (generatePrefixSuggestions d w)

/-- Extraction loop of SuggestionEngine::rankCandidates: push each word,
stopping as soon as the pushed count reaches the maximum (the check
happens after the push, so a maximum of 0 still yields one word). -/
def rankLoop (maxSuggestions : Nat) : List (Str × ℚ) → List Str
  | [] => []
  | sc :: rest =>
      if maxSuggestions ≤ 1 then [sc.1]
      else sc.1 :: rankLoop (maxSuggestions - 1) rest

/-- Model of SuggestionEngine::rankCandidates, parametric in the fused
score (the source computes it in double precision from std::log; every
theorem below holds for an arbitrary score function): score each
candidate, sort by score descending (std::sort, the model stable on
ties), then extract up to maxSuggestions words. -/
def rankCandidates (score : Str → Str → ℚ) (maxSuggestions : Nat) (w : Str)
    (candidates : List Str) : List Str :=
  let scored := candidates.map (fun c => (c, score w c))
  rankLoop maxSuggestions (insSortLe (fun a b => decide (b.2 ≤ a.2)) scored)

/-- Model of SuggestionEngine::generateSuggestions (the dictionary is
always present in the model; the source returns empty on a null
dictionary): empty for the empty word, otherwise the ranked candidate
pool. -/
def generateSuggestions (score : Str → Str → ℚ) (maxSuggestions : Nat)
    (d : Dictionary) (w : Str) : List Str :=
  if w.isEmpty then []
  else rankCandidates score maxSuggestions w (candidatePool d w)

/-- Whether a string starts with the given prefix (used to model the
anchored alternatives of the url pattern). -/
def startsWithStr (pre s : Str) : Bool := s.take pre.length == pre

/-- Tail of the first two url alternatives: one or more non-whitespace
characters filling the rest of the string. -/
def urlTailOk (r : Str) : Bool := !r.isEmpty && r.all (fun c => !(isSpaceB c))

/-- Third url alternative, an alphanumeric then alphanumerics or dashes, a
dot, two or more letters, matching the whole string. -/
def urlHostAlt (s : Str) : Bool :=
  match s with
  | [] => false
  | c :: _ =>
      isAlnumB c &&
      (List.range s.length).any (fun k =>
        s.getD k 0 == 46 && decide (1 ≤ k) &&
        (s.take k).all (fun u => isAlnumB u || u == 45) &&
        decide (k + 3 ≤ s.length) && (s.drop (k + 1)).all isAlphaB)

/-- Model of TextProcessor::isUrl: regex_match of the whole string against
the url pattern of the constructor (http or https scheme, www prefix, or
a dotted host). -/
def isUrl (s : Str) : Bool :=
  (startsWithStr (strM "http://") s && urlTailOk (s.drop 7)) ||
  (startsWithStr (strM "https://") s && urlTailOk (s.drop 8)) ||
  (startsWithStr (strM "www.") s && urlTailOk (s.drop 4)) ||
  urlHostAlt s

/-- Character class of the local part of the email pattern. -/
def emailLocalChar (c : Nat) : Bool :=
  isAlnumB c || c == 46 || c == 95 || c == 37 || c == 43 || c == 45

/-- Character class of the host part of the email pattern. -/
def emailHostChar (c : Nat) : Bool := isAlnumB c || c == 46 || c == 45

/-- Domain of the email pattern: host characters, a dot, two or more
letters, matching the whole string. -/
def emailDomainOk (dom : Str) : Bool :=
  (List.range dom.length).any (fun k =>
    dom.getD k 0 == 46 && decide (1 ≤ k) &&
    (dom.take k).all emailHostChar &&
    decide (k + 3 ≤ dom.length) && (dom.drop (k + 1)).all isAlphaB)

/-- Model of TextProcessor::isEmail: regex_match of the whole string
against the email pattern of the constructor. -/
def isEmail (s : Str) : Bool :=
  let lcl := s.takeWhile (fun c => c != 64)
  let rest := s.dropWhile (fun c => c != 64)
  match rest with
  | 64 :: dom => !lcl.isEmpty && lcl.all emailLocalChar && emailDomainOk dom
  | _ => false

/-- Model of TextProcessor::isNumber: regex_match of the whole string
against digits with an optional dot and further digits. -/
def isNumber (s : Str) : Bool :=
  let d1 := s.takeWhile isDigitB
  let r := s.dropWhile isDigitB
  !d1.isEmpty &&
    (r.isEmpty ||
      match r with
      | 46 :: r2 => !r2.isEmpty && r2.all isDigitB
      | _ => false)

/-- Model of TextProcessor::isAlphabetic: non-empty, letters and
apostrophes only. -/
def isAlphabetic (w : Str) : Bool :=
  !w.isEmpty && w.all (fun c => isAlphaB c || c == 39)

/-- Model of TextProcessor::removePunctuation: keep alphanumerics and
apostrophes. -/
def removePunctuation (w : Str) : Str :=
  w.filter (fun c => isAlnumB c || c == 39)

/-- Model of TextProcessor::normalizeWord in the default configuration
(case folding on): strip punctuation, then lowercase. -/
def normalizeWord (w : Str) : Str := toLowerStr (removePunctuation w)

/-- Model of TextProcessor::shouldIgnoreWord in the default configuration
(urls, emails and numbers all ignored): empty, url, email, number, length
at most 2, or not purely alphabetic. -/
def shouldIgnoreWord (w : Str) : Bool :=
  if w.isEmpty then true
  else if isUrl w then true
  else if isEmail w then true
  else if isNumber w then true
  else if w.length ≤ 2 then true
  else if !(isAlphabetic w) then true
  else false

/-- Maximal match of the word pattern, letters then optionally an
apostrophe and more letters, at a position whose character is a letter:
the token and the text remaining after it.  This is the match the
ECMAScript regex of the tokenizer produces at such a position. -/
def matchTokenAt (l : Str) : Str × Str :=
  let a := l.takeWhile isAlphaB
  let r := l.dropWhile isAlphaB
  if r.headD 0 = 39 then
    let b := (r.drop 1).takeWhile isAlphaB
    if b.isEmpty then (a, r)
    else (a ++ 39 :: b, (r.drop 1).dropWhile isAlphaB)
  else (a, r)

/-- Scanner equivalent to the sregex_iterator loop over the word pattern:
every match with its byte position, in text order.  The fuel argument
makes the recursion structural; it is the length of the remaining text at
the start, and every step consumes at least one character. -/
def tokenizeAux : Nat → Str → Nat → List (Str × Nat)
  | 0, _, _ => []
  | _ + 1, [], _ => []
  | fuel + 1, c :: rest, pos =>
      if isAlphaB c then
        let m := matchTokenAt (c :: rest)
        (m.1, pos) :: tokenizeAux fuel m.2 (pos + m.1.length)
      else tokenizeAux fuel rest (pos + 1)

/-- All word-pattern matches of a text with their byte positions. -/
def tokenize (text : Str) : List (Str × Nat) := tokenizeAux text.length text 0

/-- Scan for the first newline in a list, reporting the absolute index
obtained by counting from the given one (auxiliary of findNl). -/
def findNlAux : Str → Nat → Option Nat
  | [], _ => none
  | c :: rest, idx => if c = 10 then some idx else findNlAux rest (idx + 1)

/-- Model of the std::string find of a newline from a start index. -/
def findNl (text : Str) (start : Nat) : Option Nat :=
  findNlAux (text.drop start) start

/-- Line-tracking while loop of TextProcessor::extractWordsWithLines:
while the line start is at most the match position, find the next
newline; stop when there is none or it lies past the position, otherwise
count a line and move the line start past the newline.  The fuel makes
the recursion structural; the loop runs at most p + 1 times because the
line start strictly increases and stays at most p + 1. -/
def advanceLineAux (text : Str) (p : Nat) : Nat → Nat → Nat → Nat × Nat
  | 0, ln, ls => (ln, ls)
  | fuel + 1, ln, ls =>
      if ls ≤ p then
        match findNl text ls with
        | none => (ln, ls)
        | some nl => if p < nl then (ln, ls) else advanceLineAux text p fuel (ln + 1) (nl + 1)
      else (ln, ls)

/-- Line and line start after advancing past a match position. -/
def advanceLine (text : Str) (p ln ls : Nat) : Nat × Nat :=
  advanceLineAux text p (p + 2) ln ls

/-- Match loop of TextProcessor::extractWordsWithLines: advance the line
state for each match, compute the column as position minus line start
plus one, and emit the normalized word with line and column unless the
token is ignored. -/
def ewlAux (text : Str) : List (Str × Nat) → Nat → Nat → List (Str × Nat × Nat)
  | [], _, _ => []
  | (tok, p) :: rest, ln, ls =>
      let st := advanceLine text p ln ls
      if shouldIgnoreWord tok then ewlAux text rest st.1 st.2
      else (normalizeWord tok, st.1, p - st.2 + 1) :: ewlAux text rest st.1 st.2

/-- Model of TextProcessor::extractWordsWithLines in the default
configuration: line number starts at 1, line start at byte 0. -/
def extractWordsWithLines (text : Str) : List (Str × Nat × Nat) :=
  ewlAux text (tokenize text) 1 0

/-- Closed form of the line number at a byte position: one more than the
number of newlines at indices up to and including the position.  Used to
state what the line-tracking loop computes. -/
def lineNumberAt (text : Str) (p : Nat) : Nat := 1 + (text.take (p + 1)).count 10

/-- Closed form of the line start at a byte position: the index just after
the last newline at an index up to and including the position, 0 when
there is none.  Meaningful for positions inside the text. -/
def lineStartAt (text : Str) (p : Nat) : Nat :=
  (p + 1) - ((text.take (p + 1)).reverse.takeWhile (fun c => c != 10)).length

/-! Shared lemmas about the container models. -/

theorem mem_insSortIns {α : Type} (le : α → α → Bool) (a x : α) :
    ∀ l : List α, x ∈ insSortIns le a l ↔ x = a ∨ x ∈ l := by
  intro l
  induction l with
  | nil => simp [insSortIns]
  | cons b l ih =>
      rw [insSortIns]
      by_cases h : le a b = true
      · simp [h]
      · rw [if_neg h]
        simp only [List.mem_cons, ih]
        tauto

theorem mem_insSortLe {α : Type} (le : α → α → Bool) (x : α) :
    ∀ l : List α, x ∈ insSortLe le l ↔ x ∈ l := by
  intro l
  induction l with
  | nil => simp [insSortLe]
  | cons a l ih => simp [insSortLe, mem_insSortIns, ih]

theorem mem_dedupAdjAux {α : Type} [DecidableEq α] (x : α) :
    ∀ (l : List α) (prev : α), x ∈ dedupAdjAux prev l → x ∈ l := by
  intro l
  induction l with
  | nil => simp [dedupAdjAux]
  | cons b l ih =>
      intro prev h
      by_cases hb : b = prev
      · simp only [dedupAdjAux, hb, if_true] at h
        exact List.mem_cons_of_mem _ (ih prev h)
      · simp only [dedupAdjAux, hb, if_false, List.mem_cons] at h
        rcases h with h | h
        · rw [h]; exact List.mem_cons_self b l
        · exact List.mem_cons_of_mem _ (ih b h)

theorem mem_dedupAdj {α : Type} [DecidableEq α] (x : α) (l : List α) :
    x ∈ dedupAdj l → x ∈ l := by
  cases l with
  | nil => simp [dedupAdj]
  | cons a l =>
      intro h
      simp only [dedupAdj, List.mem_cons] at h
      rcases h with h | h
      · simp [h]
      · exact List.mem_cons_of_mem _ (mem_dedupAdjAux x l a h)

theorem mem_insertNew (pool : List Str) (c x : Str) :
    x ∈ insertNew pool c → x ∈ pool ∨ x = c := by
  intro h
  unfold insertNew at h
  by_cases hc : pool.contains c = true
  · rw [if_pos hc] at h; exact Or.inl h
  · rw [if_neg hc] at h
    rcases List.mem_append.mp h with h2 | h2
    · exact Or.inl h2
    · simp only [List.mem_singleton] at h2; exact Or.inr h2

theorem mem_poolAddFiltered (d : Dictionary) (x : Str) :
    ∀ (cs pool : List Str), x ∈ poolAddFiltered d pool cs →
      x ∈ pool ∨ (x ∈ cs ∧ containsWord d x = true) := by
  intro cs
  induction cs with
  | nil => intro pool h; exact Or.inl h
  | cons c cs ih =>
      intro pool h
      simp only [poolAddFiltered, List.foldl_cons] at h
      by_cases hc : containsWord d c = true
      · simp only [hc, if_true] at h
        rcases ih (insertNew pool c) h with h2 | h2
        · rcases mem_insertNew pool c x h2 with h3 | h3
          · exact Or.inl h3
          · subst h3; exact Or.inr ⟨List.mem_cons_self _ _, hc⟩
        · exact Or.inr ⟨List.mem_cons_of_mem _ h2.1, h2.2⟩
      · simp only [hc, if_false] at h
        rcases ih pool h with h2 | h2
        · exact Or.inl h2
        · exact Or.inr ⟨List.mem_cons_of_mem _ h2.1, h2.2⟩

theorem mem_poolAddAll (x : Str) :
    ∀ (cs pool : List Str), x ∈ poolAddAll pool cs → x ∈ pool ∨ x ∈ cs := by
  intro cs
  induction cs with
  | nil => intro pool h; exact Or.inl h
  | cons c cs ih =>
      intro pool h
      simp only [poolAddAll, List.foldl_cons] at h
      rcases ih (insertNew pool c) h with h2 | h2
      · rcases mem_insertNew pool c x h2 with h3 | h3
        · exact Or.inl h3
        · subst h3; exact Or.inr (List.mem_cons_self _ _)
      · exact Or.inr (List.mem_cons_of_mem _ h2)

theorem mem_rankLoop (x : Str) :
    ∀ (scored : List (Str × ℚ)) (maxS : Nat), x ∈ rankLoop maxS scored →
      ∃ q, (x, q) ∈ scored := by
  intro scored
  induction scored with
  | nil => simp [rankLoop]
  | cons sc rest ih =>
      intro maxS h
      by_cases hm : maxS ≤ 1
      · simp only [rankLoop, hm, if_true, List.mem_singleton] at h
        exact ⟨sc.2, by simp [h]⟩
      · simp only [rankLoop, hm, if_false, List.mem_cons] at h
        rcases h with h | h
        · exact ⟨sc.2, by simp [h]⟩
        · obtain ⟨q, hq⟩ := ih _ h
          exact ⟨q, List.mem_cons_of_mem _ hq⟩

theorem mem_rankCandidates (score : Str → Str → ℚ) (maxS : Nat) (w x : Str)
    (candidates : List Str) : x ∈ rankCandidates score maxS w candidates →
      x ∈ candidates := by
  intro h
  obtain ⟨q, hq⟩ := mem_rankLoop x _ maxS h
  rw [mem_insSortLe] at hq
  have := List.mem_map.mp hq
  obtain ⟨c, hc, he⟩ := this
  obtain ⟨h1, _⟩ := Prod.mk.injEq .. ▸ he
  exact h1 ▸ hc

theorem rankCandidates_singleton (score : Str → Str → ℚ) (maxS : Nat)
    (w c : Str) : rankCandidates score maxS w [c] = [c] := by
  simp only [rankCandidates, List.map_cons, List.map_nil, insSortLe, insSortIns, rankLoop]
  split <;> simp [rankLoop]

/-! Lemmas about the character models. -/

theorem toLowerB_idem (c : Nat) : toLowerB (toLowerB c) = toLowerB c := by
  simp only [toLowerB, isUpperB, Bool.and_eq_true, decide_eq_true_eq]
  split_ifs <;> omega

theorem toLowerStr_idem (w : Str) : toLowerStr (toLowerStr w) = toLowerStr w := by
  induction w with
  | nil => rfl
  | cons c w ih => simp only [toLowerStr, List.map_cons] at ih ⊢; rw [toLowerB_idem]; simp [ih]

theorem toLowerB_space_iff (c : Nat) : toLowerB c = 32 ↔ c = 32 := by
  simp only [toLowerB, isUpperB, Bool.and_eq_true, decide_eq_true_eq]
  split_ifs with h <;> omega

theorem mem_toLowerStr_space (w : Str) : 32 ∈ toLowerStr w ↔ 32 ∈ w := by
  simp only [toLowerStr, List.mem_map]
  constructor
  · rintro ⟨c, hc, he⟩
    rw [toLowerB_space_iff] at he
    exact he ▸ hc
  · intro h
    exact ⟨32, h, by simp [toLowerB, isUpperB]⟩

/-- Claim C9: dictionary lookups are case-insensitive: containsWord and
getWordFrequency agree on a word and on its lowercased form, in every
lexicon state, because both lowercase their argument before the lookup
and lowercasing is idempotent. -/
theorem C9_lookups_case_insensitive (d : Dictionary) (w : Str) :
    containsWord d w = containsWord d (toLowerStr w) ∧
    getWordFrequency d w = getWordFrequency d (toLowerStr w) := by
  rw [containsWord, containsWord, getWordFrequency, getWordFrequency, toLowerStr_idem]
  exact ⟨rfl, rfl⟩

/-- Claim C1, evidence of the code bug: removeWord never unmarks the trie
terminal, so after adding the word a and removing it again the prefix
query for a still returns a although containsWord denies it and the word
count is 0; the claimed invariant that every returned word is in the
lexicon fails in this reachable state. -/
theorem C1_prefix_query_returns_removed_word :
    getWordsWithPrefix (removeWord (addWord Dictionary.empty (strM "a") 1) (strM "a")).1 (strM "a") 10 = [strM "a"] ∧
    containsWord (removeWord (addWord Dictionary.empty (strM "a") 1) (strM "a")).1 (strM "a") = false ∧
    dictSize (removeWord (addWord Dictionary.empty (strM "a") 1) (strM "a")).1 = 0 := by
  refine ⟨by decide, by decide, by decide⟩

/-- Claim C2, evidence of the code bug: addWord pushes the word onto its
phonetic bucket unconditionally, so adding the same word twice leaves the
size at 1 and updates the frequency, as the claim states, but the bucket
of its phonetic code then holds the word twice, not once. -/
theorem C2_second_add_duplicates_phonetic_bucket :
    dictSize (addWord (addWord Dictionary.empty (strM "ab") 1) (strM "ab") 2) = 1 ∧
    getWordFrequency (addWord (addWord Dictionary.empty (strM "ab") 1) (strM "ab") 2) (strM "ab") = 2 ∧
    assocLookup (addWord (addWord Dictionary.empty (strM "ab") 1) (strM "ab") 2).phoneticMap
      (generatePhoneticCode (strM "ab")) = some [strM "ab", strM "ab"] := by
  refine ⟨by decide, by decide, by decide⟩

/-- Claim C3, evidence of the code bug: on a line whose text after the
colon starts with no digit, the numeric conversion of loadFromFile throws
(std::stoul raises invalid argument and nothing catches it), so the load
neither completes normally nor returns true on this successfully opened
file. -/
theorem C3_loadFromFile_raises_on_malformed_frequency :
    loadFromFile [strM "hello:xyz"] = Except.error () := rfl

/-- Claim C5, evidence of the code bug: in the reachable state where the
word ab was added and then removed, generateSuggestions (for every score
function and the default cap 10) returns exactly the removed word ab,
which containsWord denies: a returned suggestion is not in the lexicon,
because the prefix-suggestion path reads stale trie terminals. -/
theorem C5_suggestion_outside_lexicon (score : Str → Str → ℚ) :
    generateSuggestions score 10 (removeWord (addWord Dictionary.empty (strM "ab") 1) (strM "ab")).1 (strM "ab") = [strM "ab"] ∧
    containsWord (removeWord (addWord Dictionary.empty (strM "ab") 1) (strM "ab")).1 (strM "ab") = false := by
  constructor
  · have hpool : candidatePool (removeWord (addWord Dictionary.empty (strM "ab") 1) (strM "ab")).1 (strM "ab") = [strM "ab"] := by decide
    rw [generateSuggestions]
    rw [if_neg (by decide)]
    rw [hpool, rankCandidates_singleton]
  · decide

/-! Lemmas about the phonetic code. -/

theorem phoneticDigit_range (c d : Nat) (h : phoneticDigit c = some d) :
    49 ≤ d ∧ d ≤ 54 := by
  unfold phoneticDigit at h
  split_ifs at h <;> simp_all <;> omega

theorem phoneticLoop_spec : ∀ (rest code : Str), ∃ extra,
    phoneticLoop rest code = code ++ extra ∧
    (∀ c ∈ extra, 49 ≤ c ∧ c ≤ 54) ∧
    (code.length ≤ 4 → (code ++ extra).length ≤ 4) := by
  intro rest
  induction rest with
  | nil => intro code; exact ⟨[], by simp [phoneticLoop]⟩
  | cons c rest ih =>
      intro code
      rw [phoneticLoop]
      by_cases hlen : code.length < 4
      · rw [if_pos hlen]
        cases hd : phoneticDigit (toLowerB c) with
        | none => exact ih code
        | some d =>
            dsimp only
            by_cases hlast : code.getLast? = some d
            · rw [if_pos hlast]; exact ih code
            · rw [if_neg hlast]
              obtain ⟨extra, h1, h2, h3⟩ := ih (code ++ [d])
              refine ⟨d :: extra, ?_, ?_, ?_⟩
              · rw [h1]; simp
              · intro x hx
                rcases List.mem_cons.mp hx with hx | hx
                · subst hx; exact phoneticDigit_range _ _ hd
                · exact h2 x hx
              · intro h4
                have h5 : (code ++ [d]).length ≤ 4 := by
                  simp only [List.length_append, List.length_singleton]; omega
                have h6 := h3 h5
                simp only [List.length_append, List.length_singleton, List.length_cons] at h6 ⊢
                omega
      · rw [if_neg hlen]
        refine ⟨[], by simp, by simp, by simp⟩

theorem toUpperB_alpha (c : Nat) (h : isAlphaB c = true) :
    65 ≤ toUpperB c ∧ toUpperB c ≤ 90 := by
  simp only [isAlphaB, isUpperB, isLowerB, Bool.or_eq_true, Bool.and_eq_true,
    decide_eq_true_eq] at h
  simp only [toUpperB, isLowerB, Bool.and_eq_true, decide_eq_true_eq]
  split_ifs <;> omega

/-- Claim C6, counterexample: the phonetic code of the empty word is the
empty string, not a 4-character code, and the code of a word whose first
character is not a letter starts with that character unchanged, not with
an uppercase letter: the claim fails as stated for every word. -/
theorem C6_phonetic_shape_counterexample :
    (generatePhoneticCode []).length = 0 ∧
    generatePhoneticCode (strM "1a") = strM "1000" ∧
    ¬(65 ≤ (generatePhoneticCode (strM "1a")).getD 0 0 ∧
      (generatePhoneticCode (strM "1a")).getD 0 0 ≤ 90) := by
  refine ⟨by decide, by decide, by decide⟩

/-- Claim C6 as amended: for every non-empty word the phonetic code has
length exactly 4 and its last three characters are digits between 0
and 6; its first character is an uppercase letter A to Z whenever the
word's first character is an ASCII letter.  (The counterexample forces
the restriction to non-empty words with a letter first.) -/
theorem C6_phonetic_code_shape (w : Str) (hw : w ≠ []) :
    (generatePhoneticCode w).length = 4 ∧
    (∀ c ∈ (generatePhoneticCode w).drop 1, 48 ≤ c ∧ c ≤ 54) ∧
    (isAlphaB (w.getD 0 0) = true →
      65 ≤ (generatePhoneticCode w).getD 0 0 ∧ (generatePhoneticCode w).getD 0 0 ≤ 90) := by
  cases w with
  | nil => exact absurd rfl hw
  | cons c0 rest =>
      obtain ⟨extra, h1, h2, h3⟩ := phoneticLoop_spec rest [toUpperB c0]
      have h4 : extra.length ≤ 3 := by
        have := h3 (by simp)
        simp only [List.length_append, List.length_singleton] at this
        omega
      have hcode : generatePhoneticCode (c0 :: rest) =
          toUpperB c0 :: (extra ++ List.replicate (3 - extra.length) 48) := by
        simp only [generatePhoneticCode, h1]
        simp only [List.cons_append, List.nil_append, List.length_cons]
        have : 4 - (extra.length + 1) = 3 - extra.length := by omega
        rw [this]
      rw [hcode]
      refine ⟨?_, ?_, ?_⟩
      · simp only [List.length_cons, List.length_append, List.length_replicate]
        omega
      · intro c hc
        simp only [List.drop_one, List.tail_cons, List.mem_append] at hc
        rcases hc with hc | hc
        · have := h2 c hc; omega
        · have := List.eq_of_mem_replicate hc
          omega
      · intro halpha
        simp only [List.getD_cons_zero]
        exact toUpperB_alpha c0 (by simpa using halpha)

/-- Claim C6 witness: the amended statement applied to the word robert
(whose code is R163). -/
theorem C6_phonetic_code_shape_witness :
    strM "robert" ≠ [] ∧
    ((generatePhoneticCode (strM "robert")).length = 4 ∧
     (∀ c ∈ (generatePhoneticCode (strM "robert")).drop 1, 48 ≤ c ∧ c ≤ 54) ∧
     (isAlphaB ((strM "robert").getD 0 0) = true →
       65 ≤ (generatePhoneticCode (strM "robert")).getD 0 0 ∧
       (generatePhoneticCode (strM "robert")).getD 0 0 ≤ 90)) :=
  ⟨by decide, C6_phonetic_code_shape (strM "robert") (by decide)⟩

/-! Lemmas for the save and load round trip. -/

theorem natToDecAux_append : ∀ (fuel n : Nat) (acc : Str), n < fuel →
    natToDecAux fuel n acc = natToDecAux fuel n [] ++ acc := by
  intro fuel
  induction fuel with
  | zero => intro n acc h; omega
  | succ fuel ih =>
      intro n acc h
      by_cases h10 : n < 10
      · rw [natToDecAux, natToDecAux, if_pos h10, if_pos h10]; rfl
      · rw [natToDecAux, natToDecAux, if_neg h10, if_neg h10]
        have hd : n / 10 < n := Nat.div_lt_self (by omega) (by omega)
        rw [ih (n / 10) ((48 + n % 10) :: acc) (by omega),
          ih (n / 10) [48 + n % 10] (by omega)]
        simp

theorem natToDecAux_fuel_irrel : ∀ (n fuel1 fuel2 : Nat), n < fuel1 → n < fuel2 →
    natToDecAux fuel1 n [] = natToDecAux fuel2 n [] := by
  intro n
  induction n using Nat.strong_induction_on with
  | _ n ih =>
      intro fuel1 fuel2 h1 h2
      cases fuel1 with
      | zero => omega
      | succ f1 =>
          cases fuel2 with
          | zero => omega
          | succ f2 =>
              by_cases h10 : n < 10
              · rw [natToDecAux, natToDecAux, if_pos h10, if_pos h10]
              · rw [natToDecAux, natToDecAux, if_neg h10, if_neg h10]
                have hd : n / 10 < n := Nat.div_lt_self (by omega) (by omega)
                rw [natToDecAux_append f1 (n / 10) _ (by omega),
                  natToDecAux_append f2 (n / 10) _ (by omega),
                  ih (n / 10) hd f1 f2 (by omega) (by omega)]

theorem natToDec_step (n : Nat) (h : 10 ≤ n) :
    natToDec n = natToDec (n / 10) ++ [48 + n % 10] := by
  rw [natToDec, natToDec, natToDecAux, if_neg (by omega)]
  have hd : n / 10 < n := Nat.div_lt_self (by omega) (by omega)
  rw [natToDecAux_append n (n / 10) _ (by omega),
    natToDecAux_fuel_irrel (n / 10) n (n / 10 + 1) (by omega) (by omega)]

theorem natToDec_digits : ∀ n, ∀ c ∈ natToDec n, 48 ≤ c ∧ c ≤ 57 := by
  intro n
  induction n using Nat.strong_induction_on with
  | _ n ih =>
      by_cases h10 : n < 10
      · intro c hc
        rw [natToDec, natToDecAux, if_pos h10] at hc
        simp only [List.mem_singleton] at hc
        omega
      · intro c hc
        rw [natToDec_step n (by omega)] at hc
        rcases List.mem_append.mp hc with hc | hc
        · exact ih (n / 10) (Nat.div_lt_self (by omega) (by omega)) c hc
        · simp only [List.mem_singleton] at hc
          have := Nat.mod_lt n (show 0 < 10 by omega)
          omega

theorem natToDec_ne_nil (n : Nat) : natToDec n ≠ [] := by
  by_cases h10 : n < 10
  · rw [natToDec, natToDecAux, if_pos h10]; simp
  · rw [natToDec_step n (by omega)]; simp

theorem digitsVal_append_single (l : Str) (d : Nat) :
    digitsVal (l ++ [d]) = digitsVal l * 10 + (d - 48) := by
  rw [digitsVal, digitsVal, List.foldl_append]
  rfl

theorem digitsVal_natToDec : ∀ n, digitsVal (natToDec n) = n := by
  intro n
  induction n using Nat.strong_induction_on with
  | _ n ih =>
      by_cases h10 : n < 10
      · rw [natToDec, natToDecAux, if_pos h10]
        show 0 * 10 + (48 + n - 48) = n
        omega
      · rw [natToDec_step n (by omega), digitsVal_append_single,
          ih (n / 10) (Nat.div_lt_self (by omega) (by omega))]
        omega

theorem takeWhile_append_sep (sep : Nat) (p : Nat → Bool) (hsep : p sep = false) :
    ∀ (w tail : Str), (∀ c ∈ w, p c = true) →
      (w ++ sep :: tail).takeWhile p = w ∧ (w ++ sep :: tail).dropWhile p = sep :: tail := by
  intro w
  induction w with
  | nil =>
      intro tail _
      constructor
      · simp [List.takeWhile_cons, hsep]
      · simp [List.dropWhile_cons, hsep]
  | cons c w ih =>
      intro tail h
      have hc : p c = true := h c (List.mem_cons_self _ _)
      obtain ⟨h1, h2⟩ := ih tail (fun x hx => h x (List.mem_cons_of_mem _ hx))
      constructor
      · simp only [List.cons_append, List.takeWhile_cons, hc, if_true, h1]
      · simp only [List.cons_append, List.dropWhile_cons, hc, if_true, h2]

theorem stoulModel_digits (ds : Str) (hne : ds ≠ [])
    (hd : ∀ c ∈ ds, 48 ≤ c ∧ c ≤ 57) (hv : digitsVal ds < 2 ^ 64) :
    stoulModel ds = .ok (digitsVal ds) := by
  cases ds with
  | nil => exact absurd rfl hne
  | cons c rest =>
      have hc := hd c (List.mem_cons_self _ _)
      have hcs : isSpaceB c = false := by simp [isSpaceB]; omega
      have hs1 : (c :: rest).dropWhile isSpaceB = c :: rest := by
        rw [List.dropWhile_cons, if_neg (by simp [hcs])]
      have h45 : (c == 45) = false := by simp; omega
      have h43 : (c == 43) = false := by simp; omega
      have hdig : (c :: rest).takeWhile isDigitB = c :: rest :=
        List.takeWhile_eq_self_iff.mpr
          (fun x hx => by have := hd x hx; simp [isDigitB]; omega)
      unfold stoulModel
      simp only [hs1, List.headD_cons, h45, h43, Bool.or_false, if_false,
        Bool.false_eq_true, hdig, List.isEmpty_cons]
      rw [if_neg (by omega)]

theorem toLowerStr_fixed (w : Str) (h : ∀ c ∈ w, (97 ≤ c ∧ c ≤ 122) ∨ c = 39) :
    toLowerStr w = w := by
  induction w with
  | nil => rfl
  | cons c w ih =>
      have hc := h c (List.mem_cons_self _ _)
      have : toLowerB c = c := by
        simp only [toLowerB, isUpperB, Bool.and_eq_true, decide_eq_true_eq]
        rw [if_neg (by omega)]
      simp only [toLowerStr, List.map_cons] at ih ⊢
      rw [this, ih (fun x hx => h x (List.mem_cons_of_mem _ hx))]

theorem processLine_entry (d : Dictionary) (w : Str) (f : Nat) (hw : w ≠ [])
    (hchars : ∀ c ∈ w, (97 ≤ c ∧ c ≤ 122) ∨ c = 39) (hf : f < 2 ^ 32) :
    processLine d (w ++ 58 :: natToDec f) = .ok (addWord d w f) := by
  have hnospace : ∀ c ∈ w ++ 58 :: natToDec f, isSpaceB c = false := by
    intro c hc
    rcases List.mem_append.mp hc with hc | hc
    · rcases hchars c hc with h | h
      · simp [isSpaceB]; omega
      · subst h; rfl
    · rcases List.mem_cons.mp hc with hc | hc
      · subst hc; rfl
      · have := natToDec_digits f c hc
        simp [isSpaceB]; omega
  have hfilter : (w ++ 58 :: natToDec f).filter (fun c => !(isSpaceB c)) =
      w ++ 58 :: natToDec f :=
    List.filter_eq_self.mpr (fun a ha => by rw [hnospace a ha]; rfl)
  have hno58 : ∀ c ∈ w, (c != 58) = true := by
    intro c hc
    rcases hchars c hc with h | h
    · simp; omega
    · subst h; rfl
  obtain ⟨htake, hdrop⟩ :=
    takeWhile_append_sep 58 (fun c => c != 58) (by rfl) w (natToDec f) hno58
  have hmem58 : (58 : Nat) ∈ w ++ 58 :: natToDec f := by simp
  have hcont : (w ++ 58 :: natToDec f).contains 58 = true :=
    List.elem_eq_true_of_mem hmem58
  have hemp : (w ++ 58 :: natToDec f).isEmpty = false := by
    cases w with
    | nil => rfl
    | cons a v => rfl
  unfold processLine
  simp only [hfilter, hemp, Bool.false_eq_true, if_false, hcont, if_true,
    htake, hdrop, List.drop_succ_cons, List.drop_zero]
  rw [stoulModel_digits (natToDec f) (natToDec_ne_nil f) (natToDec_digits f)
    (by rw [digitsVal_natToDec]; omega)]
  simp only [digitsVal_natToDec]
  rw [Nat.mod_eq_of_lt hf]

theorem assocSet_absent {α : Type} (m : List (Str × α)) (k : Str) (v : α)
    (h : ∀ e ∈ m, e.1 ≠ k) : assocSet m k v = m ++ [(k, v)] := by
  induction m with
  | nil => rfl
  | cons e m ih =>
      obtain ⟨k2, v2⟩ := e
      rw [assocSet, if_neg (h (k2, v2) (List.mem_cons_self _ _)),
        ih (fun x hx => h x (List.mem_cons_of_mem _ hx))]
      rfl

theorem addWord_fresh (d : Dictionary) (w : Str) (f : Nat) (hw : w ≠ [])
    (hlow : toLowerStr w = w) (hset : w ∉ d.wordSet)
    (hkeys : ∀ e ∈ d.wordFrequencies, e.1 ≠ w) :
    (addWord d w f).wordSet = d.wordSet ++ [w] ∧
    (addWord d w f).wordFrequencies = d.wordFrequencies ++ [(w, f)] := by
  have hcont : d.wordSet.contains w = false := by
    rw [Bool.eq_false_iff]
    intro hc
    exact hset (List.mem_of_elem_eq_true hc)
  constructor <;>
    simp [addWord, hw, hlow, hcont, hset, assocSet_absent d.wordFrequencies w f hkeys]

theorem foldl_addWord_build : ∀ (entries : List (Str × Nat)) (d : Dictionary),
    (∀ e ∈ entries, e.1 ≠ [] ∧ toLowerStr e.1 = e.1) →
    (entries.map Prod.fst).Nodup →
    (∀ e ∈ entries, e.1 ∉ d.wordSet) →
    (∀ e ∈ entries, ∀ e2 ∈ d.wordFrequencies, e2.1 ≠ e.1) →
    (entries.foldl (fun d2 wf => addWord d2 wf.1 wf.2) d).wordSet
        = d.wordSet ++ entries.map Prod.fst ∧
    (entries.foldl (fun d2 wf => addWord d2 wf.1 wf.2) d).wordFrequencies
        = d.wordFrequencies ++ entries := by
  intro entries
  induction entries with
  | nil => intro d _ _ _ _; simp
  | cons e entries ih =>
      intro d hwf hnodup hset hkeys
      obtain ⟨w, f⟩ := e
      have hhead := hwf (w, f) (List.mem_cons_self _ _)
      rw [List.map_cons] at hnodup
      obtain ⟨hnotin, hnodup2⟩ := List.nodup_cons.mp hnodup
      obtain ⟨ha, hb⟩ := addWord_fresh d w f hhead.1 hhead.2
        (hset (w, f) (List.mem_cons_self _ _))
        (fun e2 he2 => hkeys (w, f) (List.mem_cons_self _ _) e2 he2)
      obtain ⟨hc, hd2⟩ := ih (addWord d w f)
        (fun e2 he2 => hwf e2 (List.mem_cons_of_mem _ he2))
        hnodup2
        (by
          intro e2 he2
          rw [ha, List.mem_append]
          rintro (hin | hin)
          · exact hset e2 (List.mem_cons_of_mem _ he2) hin
          · simp only [List.mem_singleton] at hin
            have hm : e2.1 ∈ entries.map Prod.fst := List.mem_map_of_mem Prod.fst he2
            rw [hin] at hm
            exact hnotin hm)
        (by
          intro e2 he2 e3 he3
          rw [hb, List.mem_append] at he3
          rcases he3 with he3 | he3
          · exact hkeys e2 (List.mem_cons_of_mem _ he2) e3 he3
          · simp only [List.mem_singleton] at he3
            subst he3
            intro hcontra
            apply hnotin
            rw [hcontra]
            exact List.mem_map_of_mem Prod.fst he2)
      simp only [List.foldl_cons]
      rw [hc, ha, hd2, hb]
      simp [List.append_assoc]

theorem loadLinesAux_entries : ∀ (entries : List (Str × Nat)) (d : Dictionary),
    (∀ e ∈ entries, e.1 ≠ [] ∧ (∀ c ∈ e.1, (97 ≤ c ∧ c ≤ 122) ∨ c = 39) ∧ e.2 < 2 ^ 32) →
    loadLinesAux (entries.map (fun wf => wf.1 ++ 58 :: natToDec wf.2)) d =
      .ok (entries.foldl (fun d2 wf => addWord d2 wf.1 wf.2) d) := by
  intro entries
  induction entries with
  | nil => intro d _; rfl
  | cons e entries ih =>
      intro d h
      obtain ⟨w, f⟩ := e
      obtain ⟨h1, h2, h3⟩ := h (w, f) (List.mem_cons_self _ _)
      simp only [List.map_cons, List.foldl_cons]
      rw [loadLinesAux, processLine_entry d w f h1 h2 h3]
      exact ih (addWord d w f) (fun e2 he2 => h e2 (List.mem_cons_of_mem _ he2))

/-- Claim C4: saving a lexicon with save_to_file and loading the written
lines into a fresh lexicon with load_from_file yields a lexicon with the
same all_words set and the same frequency for every word.  The statement
quantifies over all states that satisfy the spec's lexicon data model
(section 3): the exact set and the frequency map agree, the stored words
are distinct, non-empty, made of lowercase letters and apostrophes, and
the frequencies fit in 32 bits. -/
theorem C4_save_load_round_trip (d : Dictionary)
    (hagree : d.wordSet = d.wordFrequencies.map Prod.fst)
    (hnodup : (d.wordFrequencies.map Prod.fst).Nodup)
    (hwf : ∀ e ∈ d.wordFrequencies,
      e.1 ≠ [] ∧ (∀ c ∈ e.1, (97 ≤ c ∧ c ≤ 122) ∨ c = 39) ∧ e.2 < 2 ^ 32) :
    ∃ d2, loadFromFile (saveLines d) = .ok d2 ∧
      (∀ w, w ∈ getAllWords d2 ↔ w ∈ getAllWords d) ∧
      (∀ w, getWordFrequency d2 w = getWordFrequency d w) := by
  have hload : loadFromFile (saveLines d) =
      .ok (d.wordFrequencies.foldl (fun d2 wf => addWord d2 wf.1 wf.2) Dictionary.empty) :=
    loadLinesAux_entries d.wordFrequencies Dictionary.empty hwf
  obtain ⟨hset2, hfreq2⟩ := foldl_addWord_build d.wordFrequencies Dictionary.empty
    (fun e he => ⟨(hwf e he).1, toLowerStr_fixed e.1 (hwf e he).2.1⟩)
    hnodup (by intro e _; simp [Dictionary.empty]) (by intro e _ e2 he2; simp [Dictionary.empty] at he2)
  refine ⟨_, hload, ?_, ?_⟩
  · intro w
    rw [getAllWords, getAllWords, hset2, hagree]
    simp [Dictionary.empty]
  · intro w
    rw [getWordFrequency, getWordFrequency, hfreq2]
    simp [Dictionary.empty]

/-- Claim C4 witness: the round trip applied to the concrete lexicon
holding apple with frequency 3 and banana with frequency 1. -/
theorem C4_save_load_round_trip_witness :
    (addWord (addWord Dictionary.empty (strM "apple") 3) (strM "banana") 1).wordSet
      = (addWord (addWord Dictionary.empty (strM "apple") 3) (strM "banana") 1).wordFrequencies.map Prod.fst ∧
    ((addWord (addWord Dictionary.empty (strM "apple") 3) (strM "banana") 1).wordFrequencies.map Prod.fst).Nodup ∧
    (∀ e ∈ (addWord (addWord Dictionary.empty (strM "apple") 3) (strM "banana") 1).wordFrequencies,
      e.1 ≠ [] ∧ (∀ c ∈ e.1, (97 ≤ c ∧ c ≤ 122) ∨ c = 39) ∧ e.2 < 2 ^ 32) ∧
    (∃ d2, loadFromFile (saveLines (addWord (addWord Dictionary.empty (strM "apple") 3) (strM "banana") 1)) = .ok d2 ∧
      (∀ w, w ∈ getAllWords d2 ↔
        w ∈ getAllWords (addWord (addWord Dictionary.empty (strM "apple") 3) (strM "banana") 1)) ∧
      (∀ w, getWordFrequency d2 w =
        getWordFrequency (addWord (addWord Dictionary.empty (strM "apple") 3) (strM "banana") 1) w)) :=
  ⟨by decide, by decide, by decide,
    C4_save_load_round_trip _ (by decide) (by decide) (by decide)⟩

/-! Lemmas for the edit-distance metric. -/

theorem lev_nil_right : ∀ xs : Str, lev xs [] = xs.length := by
  intro xs
  cases xs with
  | nil => rw [lev]
  | cons x xs => rw [lev]

theorem lev_self : ∀ xs : Str, lev xs xs = 0 := by
  intro xs
  induction xs with
  | nil => rw [lev]; rfl
  | cons x xs ih => rw [lev, if_pos rfl, ih]

theorem lev_comm : ∀ xs ys : Str, lev xs ys = lev ys xs := by
  intro xs
  induction xs with
  | nil => intro ys; rw [lev_nil_right, lev]
  | cons x xs ihx =>
      intro ys
      induction ys with
      | nil => rw [lev_nil_right, lev]
      | cons y ys ihy =>
          by_cases hxy : x = y
          · rw [lev, lev, if_pos hxy, if_pos hxy.symm, ihx ys]
          · rw [lev, lev, if_neg hxy, if_neg (fun hyx => hxy hyx.symm)]
            rw [ihx (y :: ys), ihx ys, ihy]
            omega

theorem lev_lipschitz : ∀ (s : Nat) (xs ys : Str) (c : Nat), xs.length + ys.length ≤ s →
    (lev (c :: xs) ys ≤ lev xs ys + 1) ∧
    (lev xs (c :: ys) ≤ lev xs ys + 1) ∧
    (lev xs ys ≤ lev (c :: xs) ys + 1) ∧
    (lev xs ys ≤ lev xs (c :: ys) + 1) := by
  intro s
  induction s with
  | zero =>
      intro xs ys c h
      have hx : xs = [] := by cases xs; rfl; simp at h
      have hy : ys = [] := by cases ys; rfl; simp at h
      subst hx; subst hy
      refine ⟨?_, ?_, ?_, ?_⟩ <;> simp [lev, lev_nil_right]
  | succ s ih =>
      intro xs ys c h
      refine ⟨?_, ?_, ?_, ?_⟩
      · cases ys with
        | nil => rw [lev_nil_right, lev_nil_right]; simp
        | cons y ys =>
            by_cases hcy : c = y
            · rw [lev, if_pos hcy]
              have := (ih xs ys y (by simp at h; omega)).2.2.2
              omega
            · rw [lev, if_neg hcy]
              omega
      · cases xs with
        | nil => rw [lev, lev]; simp
        | cons x xs =>
            by_cases hxc : x = c
            · rw [lev, if_pos hxc]
              have := (ih xs ys x (by simp at h; omega)).2.2.1
              omega
            · rw [lev, if_neg hxc]
              omega
      · cases ys with
        | nil => rw [lev_nil_right, lev_nil_right]; simp; omega
        | cons y ys =>
            by_cases hcy : c = y
            · rw [lev, if_pos hcy]
              have := (ih xs ys y (by simp at h; omega)).2.1
              omega
            · rw [lev, if_neg hcy]
              have h1 := (ih xs ys y (by simp at h; omega)).2.1
              have h2 := (ih xs ys c (by simp at h; omega)).2.2.1
              omega
      · cases xs with
        | nil => rw [lev, lev]; simp; omega
        | cons x xs =>
            by_cases hxc : x = c
            · rw [lev, if_pos hxc]
              have := (ih xs ys x (by simp at h; omega)).1
              omega
            · rw [lev, if_neg hxc]
              have h1 := (ih xs ys x (by simp at h; omega)).1
              have h2 := (ih xs ys c (by simp at h; omega)).2.2.2
              omega

theorem editSeq_lev_le : ∀ {xs ys : Str} {n : Nat}, EditSeq xs ys n → lev xs ys ≤ n := by
  intro xs ys n h
  induction h with
  | nil => rw [lev]; simp
  | keep c _ ih => rw [lev, if_pos rfl]; exact ih
  | del c _ ih =>
      rename_i xs2 ys2 n2 _
      have := (lev_lipschitz (xs2.length + ys2.length) xs2 ys2 c le_rfl).1
      omega
  | ins c _ ih =>
      rename_i xs2 ys2 n2 _
      have := (lev_lipschitz (xs2.length + ys2.length) xs2 ys2 c le_rfl).2.1
      omega
  | sub a b _ ih =>
      by_cases hab : a = b
      · rw [lev, if_pos hab]; omega
      · rw [lev, if_neg hab]; omega

theorem lev_editSeq : ∀ xs ys : Str, EditSeq xs ys (lev xs ys) := by
  intro xs
  induction xs with
  | nil =>
      intro ys
      induction ys with
      | nil => rw [lev]; exact .nil
      | cons y ys ihy =>
          rw [lev]
          rw [lev] at ihy
          exact .ins y ihy
  | cons x xs ihx =>
      intro ys
      induction ys with
      | nil =>
          have h0 := EditSeq.del x (ihx [])
          rw [lev_nil_right] at h0
          rw [lev_nil_right]
          exact h0
      | cons y ys ihy =>
          by_cases hxy : x = y
          · rw [lev, if_pos hxy]
            subst hxy
            exact .keep x (ihx ys)
          · rw [lev, if_neg hxy]
            rcases min_cases (min (lev xs (y :: ys)) (lev (x :: xs) ys)) (lev xs ys) with
              ⟨h1, _⟩ | ⟨h1, _⟩
            · rw [h1]
              rcases min_cases (lev xs (y :: ys)) (lev (x :: xs) ys) with ⟨h2, _⟩ | ⟨h2, _⟩
              · rw [h2, Nat.add_comm]
                exact .del x (ihx (y :: ys))
              · rw [h2, Nat.add_comm]
                exact .ins y ihy
            · rw [h1, Nat.add_comm]
              exact .sub x y (ihx ys)

theorem editSeq_comp : ∀ (bound : Nat) (xs ys zs : Str) (m n : Nat),
    xs.length + ys.length + zs.length ≤ bound →
    EditSeq xs ys m → EditSeq ys zs n →
    ∃ k, k ≤ m + n ∧ EditSeq xs zs k := by
  intro bound
  induction bound with
  | zero =>
      intro xs ys zs m n h d1 d2
      have hx : xs = [] := by cases xs; rfl; simp at h
      have hy : ys = [] := by cases ys; rfl; simp at h
      have hz : zs = [] := by cases zs; rfl; simp at h
      subst hx; subst hy; subst hz
      cases d1
      cases d2
      exact ⟨0, le_refl 0, .nil⟩
  | succ bound ih =>
      intro xs ys zs m n h d1 d2
      cases d1 with
      | nil => exact ⟨n, by omega, d2⟩
      | del c d1a =>
          obtain ⟨k, hk, dk⟩ := ih _ _ _ _ _ (by simp at h; omega) d1a d2
          exact ⟨k + 1, by omega, .del c dk⟩
      | keep c d1a =>
          cases d2 with
          | keep c2 d2a =>
              obtain ⟨k, hk, dk⟩ := ih _ _ _ _ _ (by simp at h; omega) d1a d2a
              exact ⟨k, by omega, .keep c dk⟩
          | del c2 d2a =>
              obtain ⟨k, hk, dk⟩ := ih _ _ _ _ _ (by simp at h; omega) d1a d2a
              exact ⟨k + 1, by omega, .del c dk⟩
          | ins b d2a =>
              obtain ⟨k, hk, dk⟩ := ih _ _ _ _ _ (by simp at h ⊢; omega) (EditSeq.keep c d1a) d2a
              exact ⟨k + 1, by omega, .ins b dk⟩
          | sub a2 b d2a =>
              obtain ⟨k, hk, dk⟩ := ih _ _ _ _ _ (by simp at h; omega) d1a d2a
              exact ⟨k + 1, by omega, .sub c b dk⟩
      | ins b d1a =>
          cases d2 with
          | keep c2 d2a =>
              obtain ⟨k, hk, dk⟩ := ih _ _ _ _ _ (by simp at h; omega) d1a d2a
              exact ⟨k + 1, by omega, .ins b dk⟩
          | del c2 d2a =>
              obtain ⟨k, hk, dk⟩ := ih _ _ _ _ _ (by simp at h; omega) d1a d2a
              exact ⟨k, by omega, dk⟩
          | ins b2 d2a =>
              obtain ⟨k, hk, dk⟩ := ih _ _ _ _ _ (by simp at h ⊢; omega) (EditSeq.ins b d1a) d2a
              exact ⟨k + 1, by omega, .ins b2 dk⟩
          | sub a2 b2 d2a =>
              obtain ⟨k, hk, dk⟩ := ih _ _ _ _ _ (by simp at h; omega) d1a d2a
              exact ⟨k + 1, by omega, .ins b2 dk⟩
      | sub a b d1a =>
          cases d2 with
          | keep c2 d2a =>
              obtain ⟨k, hk, dk⟩ := ih _ _ _ _ _ (by simp at h; omega) d1a d2a
              exact ⟨k + 1, by omega, .sub a b dk⟩
          | del c2 d2a =>
              obtain ⟨k, hk, dk⟩ := ih _ _ _ _ _ (by simp at h; omega) d1a d2a
              exact ⟨k + 1, by omega, .del a dk⟩
          | ins b2 d2a =>
              obtain ⟨k, hk, dk⟩ := ih _ _ _ _ _ (by simp at h ⊢; omega) (EditSeq.sub a b d1a) d2a
              exact ⟨k + 1, by omega, .ins b2 dk⟩
          | sub a2 b2 d2a =>
              obtain ⟨k, hk, dk⟩ := ih _ _ _ _ _ (by simp at h; omega) d1a d2a
              exact ⟨k + 1, by omega, .sub a b2 dk⟩

theorem lev_triangle (xs ys zs : Str) : lev xs zs ≤ lev xs ys + lev ys zs := by
  obtain ⟨k, hk, dk⟩ := editSeq_comp (xs.length + ys.length + zs.length) xs ys zs _ _
    le_rfl (lev_editSeq xs ys) (lev_editSeq ys zs)
  exact le_trans (editSeq_lev_le dk) hk

theorem take_succ_getD : ∀ (l : Str) (i : Nat), i < l.length →
    l.take (i + 1) = l.take i ++ [l.getD i 0] := by
  intro l
  induction l with
  | nil => intro i h; simp at h
  | cons c l ih =>
      intro i h
      cases i with
      | zero => rfl
      | succ i =>
          simp only [List.take_succ_cons, List.getD_cons_succ]
          rw [ih i (by simp at h; omega)]
          rfl

theorem dpCell_eq_lev (w1 w2 : Str) : ∀ (i j : Nat), i ≤ w1.length → j ≤ w2.length →
    dpCell w1 w2 i j = lev (w1.take i).reverse (w2.take j).reverse := by
  intro i
  induction i with
  | zero =>
      intro j _ hj
      rw [dpCell]
      simp only [List.take_zero, List.reverse_nil]
      rw [lev]
      simp only [List.length_reverse, List.length_take]
      omega
  | succ i ihi =>
      intro j
      induction j with
      | zero =>
          intro hi _
          rw [dpCell]
          simp only [List.take_zero, List.reverse_nil]
          rw [lev_nil_right]
          simp only [List.length_reverse, List.length_take]
          omega
      | succ j ihj =>
          intro hi hj
          rw [dpCell]
          rw [take_succ_getD w1 i (by omega), take_succ_getD w2 j (by omega)]
          simp only [List.reverse_append, List.reverse_cons, List.reverse_nil,
            List.nil_append, List.singleton_append]
          rw [lev]
          by_cases heq : w1.getD i 0 = w2.getD j 0
          · rw [if_pos heq, if_pos heq]
            exact ihi j (by omega) (by omega)
          · rw [if_neg heq, if_neg heq]
            have e1 := ihi (j + 1) (by omega) (by omega)
            have e2 := ihj (by omega) (by omega)
            have e3 := ihi j (by omega) (by omega)
            rw [take_succ_getD w1 i (by omega)] at e2
            rw [take_succ_getD w2 j (by omega)] at e1
            simp only [List.reverse_append, List.reverse_cons, List.reverse_nil,
              List.nil_append, List.singleton_append] at e1 e2
            rw [e1, e2, e3]

theorem calculateEditDistance_eq_lev (w1 w2 : Str) :
    calculateEditDistance w1 w2 = lev w1.reverse w2.reverse := by
  rw [calculateEditDistance, dpCell_eq_lev w1 w2 _ _ le_rfl le_rfl,
    List.take_length, List.take_length]

/-- Claim C7: the Levenshtein distance computed by calculateEditDistance
is a metric on strings: it is symmetric, zero on equal arguments, and
satisfies the triangle inequality. -/
theorem C7_edit_distance_metric (a b c : Str) :
    calculateEditDistance a b = calculateEditDistance b a ∧
    calculateEditDistance a a = 0 ∧
    calculateEditDistance a c ≤ calculateEditDistance a b + calculateEditDistance b c := by
  refine ⟨?_, ?_, ?_⟩
  · rw [calculateEditDistance_eq_lev, calculateEditDistance_eq_lev, lev_comm]
  · rw [calculateEditDistance_eq_lev, lev_self]
  · rw [calculateEditDistance_eq_lev, calculateEditDistance_eq_lev,
      calculateEditDistance_eq_lev]
    exact lev_triangle a.reverse b.reverse c.reverse

/-! Lemmas relating the prefix query to the words stored in the trie. -/

theorem assocLookup_mem {κ α : Type} [DecidableEq κ] :
    ∀ (m : List (κ × α)) (k : κ) (v : α), assocLookup m k = some v → (k, v) ∈ m := by
  intro m
  induction m with
  | nil => intro k v h; simp [assocLookup] at h
  | cons e m ih =>
      intro k v h
      obtain ⟨k2, v2⟩ := e
      rw [assocLookup] at h
      by_cases hk : k2 = k
      · rw [if_pos hk] at h
        subst hk
        simp only [Option.some.injEq] at h
        subst h
        exact List.mem_cons_self _ _
      · rw [if_neg hk] at h
        exact List.mem_cons_of_mem _ (ih k v h)

theorem collect_sub : ∀ n : Nat,
    (∀ t : TrieNode, sizeOf t ≤ n →
      ∀ pre res maxR w, w ∈ collectWords t pre res maxR → w ∈ res ∨ w ∈ trieWordsNode t pre) ∧
    (∀ cs : List (Nat × TrieNode), sizeOf cs ≤ n →
      ∀ pre res maxR w, w ∈ collectChildren cs pre res maxR →
        w ∈ res ∨ w ∈ trieWordsChildren cs pre) := by
  intro n
  induction n using Nat.strong_induction_on with
  | _ n ih =>
    constructor
    · intro t ht pre res maxR w hw
      cases t with
      | mk cs iw f =>
        rw [collectWords] at hw
        by_cases hlen : res.length ≥ maxR
        · rw [if_pos hlen] at hw
          exact Or.inl hw
        · rw [if_neg hlen] at hw
          have hcs : sizeOf cs ≤ n - 1 := by
            have := TrieNode.mk.sizeOf_spec cs iw f
            omega
          have hn : n - 1 < n := by
            have := TrieNode.mk.sizeOf_spec cs iw f
            omega
          rcases (ih (n - 1) hn).2 cs hcs pre _ maxR w hw with h | h
          · by_cases hiw : iw = true
            · subst hiw
              simp only [if_true, List.mem_append, List.mem_singleton] at h
              rcases h with h | h
              · exact Or.inl h
              · subst h
                right
                rw [trieWordsNode]
                simp
            · rw [Bool.not_eq_true] at hiw
              subst hiw
              rw [if_neg (by simp)] at h
              exact Or.inl h
          · right
            rw [trieWordsNode]
            simp [h]
    · intro cs hcs pre res maxR w hw
      cases cs with
      | nil =>
          rw [collectChildren] at hw
          exact Or.inl hw
      | cons p rest =>
          obtain ⟨c, child⟩ := p
          rw [collectChildren] at hw
          have h1 := List.cons.sizeOf_spec (c, child) rest
          have h2 : sizeOf (c, child) = 1 + sizeOf c + sizeOf child := rfl
          have hrest : sizeOf rest ≤ n - 1 := by omega
          have hchild : sizeOf child ≤ n - 1 := by omega
          have hn : n - 1 < n := by omega
          rcases (ih (n - 1) hn).2 rest hrest pre _ maxR w hw with h | h
          · rcases (ih (n - 1) hn).1 child hchild (pre ++ [c]) res maxR w h with h3 | h3
            · exact Or.inl h3
            · right
              rw [trieWordsChildren]
              simp [h3]
          · right
            rw [trieWordsChildren]
            simp [h]

theorem trieWordsChildren_sub : ∀ (cs : List (Nat × TrieNode)) (pre : Str) (c : Nat)
    (child : TrieNode), (c, child) ∈ cs →
    ∀ w ∈ trieWordsNode child (pre ++ [c]), w ∈ trieWordsChildren cs pre := by
  intro cs
  induction cs with
  | nil => intro pre c child h; simp at h
  | cons p rest ih =>
      obtain ⟨c2, child2⟩ := p
      intro pre c child h w hw
      rw [trieWordsChildren]
      rcases List.mem_cons.mp h with heq | hmem
      · rw [Prod.mk.injEq] at heq
        obtain ⟨h1, h2⟩ := heq
        subst h1
        subst h2
        exact List.mem_append.mpr (Or.inl hw)
      · exact List.mem_append.mpr (Or.inr (ih pre c child hmem w hw))

theorem trieFind_words_sub : ∀ (p : Str) (t0 t : TrieNode) (pre : Str),
    trieFind t0 p = some t →
    ∀ w ∈ trieWordsNode t (pre ++ p), w ∈ trieWordsNode t0 pre := by
  intro p
  induction p with
  | nil =>
      intro t0 t pre h w hw
      rw [trieFind] at h
      simp only [Option.some.injEq] at h
      subst h
      simpa using hw
  | cons c p ih =>
      intro t0 t pre h w hw
      rw [trieFind] at h
      cases hlook : assocLookup t0.children c with
      | none => rw [hlook] at h; exact absurd h (by simp)
      | some child =>
          rw [hlook] at h
          have hw2 : w ∈ trieWordsNode t ((pre ++ [c]) ++ p) := by
            rw [List.append_assoc]
            simpa using hw
          have hw3 := ih child t (pre ++ [c]) h w hw2
          have hw4 := trieWordsChildren_sub t0.children (pre) c child
            (assocLookup_mem t0.children c child hlook) w hw3
          cases t0 with
          | mk cs iw f =>
              rw [trieWordsNode]
              exact List.mem_append.mpr (Or.inr hw4)

theorem getWordsWithPrefix_sub_trieWords (d : Dictionary) (pfx : Str) (maxR : Nat) :
    ∀ w ∈ getWordsWithPrefix d pfx maxR, w ∈ trieWordsNode d.trieRoot [] := by
  intro w hw
  rw [getWordsWithPrefix] at hw
  cases hfind : trieFind d.trieRoot (toLowerStr pfx) with
  | none => rw [hfind] at hw; simp at hw
  | some t =>
      rw [hfind] at hw
      rw [mem_insSortLe] at hw
      rcases (collect_sub (sizeOf t)).1 t le_rfl (toLowerStr pfx) [] maxR w hw with h | h
      · simp at h
      · exact trieFind_words_sub (toLowerStr pfx) d.trieRoot t [] hfind w (by simpa using h)

theorem mem_candidatePool (d : Dictionary) (w x : Str) (hx : x ∈ candidatePool d w) :
    containsWord d x = true ∨ x ∈ getPhoneticMatches d w ∨
      x ∈ generatePrefixSuggestions d w := by
  rw [candidatePool] at hx
  rcases mem_poolAddAll x _ _ hx with h | h
  · rcases mem_poolAddAll x _ _ h with h2 | h2
    · rcases mem_poolAddFiltered d x _ _ h2 with h3 | h3
      · rcases mem_poolAddFiltered d x _ _ h3 with h4 | h4
        · rcases mem_poolAddFiltered d x _ _ h4 with h5 | h5
          · rcases mem_poolAddFiltered d x _ _ h5 with h6 | h6
            · rcases mem_poolAddFiltered d x _ _ h6 with h7 | h7
              · simp at h7
              · exact Or.inl h7.2
            · exact Or.inl h6.2
          · exact Or.inl h5.2
        · exact Or.inl h4.2
      · exact Or.inl h3.2
    · exact Or.inr (Or.inl h2)
  · exact Or.inr (Or.inr h)

theorem mem_prefixSuggestions_trieWords (d : Dictionary) (w x : Str)
    (hx : x ∈ generatePrefixSuggestions d w) : x ∈ trieWordsNode d.trieRoot [] := by
  rw [generatePrefixSuggestions] at hx
  have h1 := mem_dedupAdj x _ hx
  rw [mem_insSortLe] at h1
  rw [List.mem_flatten] at h1
  obtain ⟨l, hl, hxl⟩ := h1
  rw [List.mem_map] at hl
  obtain ⟨len, _, hlen⟩ := hl
  subst hlen
  exact getWordsWithPrefix_sub_trieWords d (w.take len) 20 x hxl

/-- Claim C10 as amended: provided no word held in any of the lexicon's
stores contains a space, neither the exact set, nor a phonetic bucket,
nor a terminal of the trie (the claim assumed this only of the exact set,
which its own membership-check argument concerns; the counterexample
forces the extension to the trie, which removeWord leaves stale), no
suggestion returned by generateSuggestions contains a space, for every
score function, cap and input word. -/
theorem C10_no_space_in_suggestions (score : Str → Str → ℚ) (maxS : Nat)
    (d : Dictionary) (w : Str)
    (hset : ∀ u ∈ d.wordSet, 32 ∉ u)
    (hbuckets : ∀ e ∈ d.phoneticMap, ∀ u ∈ e.2, 32 ∉ u)
    (htrie : ∀ u ∈ trieWordsNode d.trieRoot [], 32 ∉ u) :
    ∀ s ∈ generateSuggestions score maxS d w, 32 ∉ s := by
  intro s hs
  rw [generateSuggestions] at hs
  by_cases hw : w.isEmpty
  · rw [if_pos hw] at hs
    simp at hs
  · rw [if_neg hw] at hs
    have hpool := mem_rankCandidates score maxS w s _ hs
    rcases mem_candidatePool d w s hpool with h | h | h
    · rw [containsWord] at h
      have hmem := List.mem_of_elem_eq_true h
      have := hset (toLowerStr s) hmem
      intro hsp
      exact this ((mem_toLowerStr_space s).mpr hsp)
    · rw [getPhoneticMatches] at h
      cases hlook : assocLookup d.phoneticMap (generatePhoneticCode w) with
      | none => rw [hlook] at h; simp at h
      | some b =>
          rw [hlook] at h
          exact hbuckets (generatePhoneticCode w, b) (assocLookup_mem _ _ _ hlook) s h
    · exact htrie s (mem_prefixSuggestions_trieWords d w s h)

/-- Claim C10, counterexample to the claim as stated: after adding the
two-token word containing a space and removing it again, the exact set is
empty, so the claimed invariant that no stored word contains a space
holds, yet generateSuggestions returns that very word (through the stale
trie terminal on the prefix path), and it contains a space. -/
theorem C10_space_suggestion_counterexample :
    (∀ u ∈ (removeWord (addWord Dictionary.empty (strM "a b") 1) (strM "a b")).1.wordSet, 32 ∉ u) ∧
    generateSuggestions (fun _ _ => (0 : ℚ)) 10
      (removeWord (addWord Dictionary.empty (strM "a b") 1) (strM "a b")).1 (strM "a") =
      [strM "a b"] ∧
    32 ∈ strM "a b" := by
  refine ⟨by decide, by decide, by decide⟩

/-- Claim C10 witness: the amended statement applied to the lexicon
holding only the word ab and the input word ax. -/
theorem C10_no_space_in_suggestions_witness :
    (∀ u ∈ (addWord Dictionary.empty (strM "ab") 1).wordSet, 32 ∉ u) ∧
    (∀ e ∈ (addWord Dictionary.empty (strM "ab") 1).phoneticMap, ∀ u ∈ e.2, 32 ∉ u) ∧
    (∀ u ∈ trieWordsNode (addWord Dictionary.empty (strM "ab") 1).trieRoot [], 32 ∉ u) ∧
    (∀ s ∈ generateSuggestions (fun _ _ => (0 : ℚ)) 10
      (addWord Dictionary.empty (strM "ab") 1) (strM "ax"), 32 ∉ s) :=
  ⟨by decide, by decide, by decide,
    C10_no_space_in_suggestions (fun _ _ => (0 : ℚ)) 10
      (addWord Dictionary.empty (strM "ab") 1) (strM "ax")
      (by decide) (by decide) (by decide)⟩

/-! Index-based helper lemmas for the tokenizer proofs. -/

theorem getD_drop : ∀ (l : Str) (n k : Nat), (l.drop n).getD k 0 = l.getD (n + k) 0 := by
  intro l
  induction l with
  | nil => intro n k; simp
  | cons c l ih =>
      intro n k
      cases n with
      | zero => simp
      | succ n =>
          rw [List.drop_succ_cons, ih n k]
          have he : n + 1 + k = (n + k) + 1 := by omega
          rw [he, List.getD_cons_succ]

theorem getD_take : ∀ (l : Str) (n k : Nat), k < n → (l.take n).getD k 0 = l.getD k 0 := by
  intro l
  induction l with
  | nil => intro n k _; simp
  | cons c l ih =>
      intro n k hk
      cases n with
      | zero => omega
      | succ n =>
          rw [List.take_succ_cons]
          cases k with
          | zero => rfl
          | succ k =>
              rw [List.getD_cons_succ, List.getD_cons_succ]
              exact ih n k (by omega)

theorem getD_append_left : ∀ (l1 l2 : Str) (k : Nat), k < l1.length →
    (l1 ++ l2).getD k 0 = l1.getD k 0 := by
  intro l1
  induction l1 with
  | nil => intro l2 k h; simp at h
  | cons c l1 ih =>
      intro l2 k hk
      cases k with
      | zero => rfl
      | succ k =>
          rw [List.cons_append, List.getD_cons_succ, List.getD_cons_succ]
          exact ih l2 k (by simp at hk; omega)

theorem getD_reverse (l : Str) (k : Nat) (h : k < l.length) :
    l.reverse.getD k 0 = l.getD (l.length - 1 - k) 0 := by
  rw [List.getD_eq_getElem?_getD, List.getD_eq_getElem?_getD, List.getElem?_reverse h]

theorem mem_of_getD : ∀ (l : Str) (k : Nat), k < l.length → l.getD k 0 ∈ l := by
  intro l
  induction l with
  | nil => intro k h; simp at h
  | cons c l ih =>
      intro k hk
      cases k with
      | zero => exact List.mem_cons_self _ _
      | succ k =>
          rw [List.getD_cons_succ]
          exact List.mem_cons_of_mem _ (ih k (by simp at hk; omega))

theorem takeWhile_char (q : Nat → Bool) : ∀ l : Str,
    (l.takeWhile q).length ≤ l.length ∧
    (∀ k, k < (l.takeWhile q).length → q (l.getD k 0) = true) ∧
    ((l.takeWhile q).length < l.length → q (l.getD (l.takeWhile q).length 0) = false) := by
  intro l
  induction l with
  | nil => simp
  | cons c l ih =>
      obtain ⟨ih1, ih2, ih3⟩ := ih
      by_cases hc : q c = true
      · rw [List.takeWhile_cons, if_pos hc]
        refine ⟨by simp; omega, ?_, ?_⟩
        · intro k hk
          cases k with
          | zero => exact hc
          | succ k =>
              rw [List.getD_cons_succ]
              exact ih2 k (by simp at hk; omega)
        · intro hlt
          rw [List.length_cons, List.getD_cons_succ]
          exact ih3 (by simp at hlt; omega)
      · rw [List.takeWhile_cons, if_neg hc]
        refine ⟨by simp, by simp, ?_⟩
        intro _
        rw [Bool.eq_false_iff]
        exact hc

theorem lenTD (q : Nat → Bool) (l : Str) :
    (l.takeWhile q).length + (l.dropWhile q).length = l.length := by
  have h := congrArg List.length (List.takeWhile_append_dropWhile q l)
  rw [List.length_append] at h
  exact h

theorem findNlAux_some : ∀ (l : Str) (idx nl : Nat), findNlAux l idx = some nl →
    idx ≤ nl ∧ nl - idx < l.length ∧ l.getD (nl - idx) 0 = 10 ∧
      ∀ k, k < nl - idx → l.getD k 0 ≠ 10 := by
  intro l
  induction l with
  | nil => intro idx nl h; simp [findNlAux] at h
  | cons c l ih =>
      intro idx nl h
      rw [findNlAux] at h
      by_cases hc : c = 10
      · rw [if_pos hc] at h
        simp only [Option.some.injEq] at h
        subst h
        refine ⟨le_rfl, by simp, by simpa using hc, ?_⟩
        intro k hk
        omega
      · rw [if_neg hc] at h
        obtain ⟨h1, h2, h3, h4⟩ := ih (idx + 1) nl h
        refine ⟨by omega, by simp; omega, ?_, ?_⟩
        · have he : nl - idx = (nl - (idx + 1)) + 1 := by omega
          rw [he, List.getD_cons_succ]
          exact h3
        · intro k hk
          cases k with
          | zero => simpa using hc
          | succ k =>
              rw [List.getD_cons_succ]
              exact h4 k (by omega)

theorem findNlAux_none : ∀ (l : Str) (idx : Nat), findNlAux l idx = none →
    ∀ k, k < l.length → l.getD k 0 ≠ 10 := by
  intro l
  induction l with
  | nil => intro idx _ k hk; simp at hk
  | cons c l ih =>
      intro idx h k hk
      rw [findNlAux] at h
      by_cases hc : c = 10
      · rw [if_pos hc] at h; exact absurd h (by simp)
      · rw [if_neg hc] at h
        cases k with
        | zero => simpa using hc
        | succ k =>
            rw [List.getD_cons_succ]
            exact ih (idx + 1) h k (by simp at hk; omega)

theorem findNl_some (text : Str) (start nl : Nat) (h : findNl text start = some nl) :
    start ≤ nl ∧ nl < text.length ∧ text.getD nl 0 = 10 ∧
      ∀ i, start ≤ i → i < nl → text.getD i 0 ≠ 10 := by
  obtain ⟨h1, h2, h3, h4⟩ := findNlAux_some (text.drop start) start nl h
  rw [List.length_drop] at h2
  rw [getD_drop] at h3
  have he : start + (nl - start) = nl := by omega
  rw [he] at h3
  refine ⟨h1, by omega, h3, ?_⟩
  intro i hi1 hi2
  have := h4 (i - start) (by omega)
  rw [getD_drop] at this
  have he2 : start + (i - start) = i := by omega
  rw [he2] at this
  exact this

theorem findNl_none (text : Str) (start : Nat) (h : findNl text start = none) :
    ∀ i, start ≤ i → i < text.length → text.getD i 0 ≠ 10 := by
  intro i hi1 hi2
  have := findNlAux_none (text.drop start) start h (i - start)
    (by rw [List.length_drop]; omega)
  rw [getD_drop] at this
  have he : start + (i - start) = i := by omega
  rw [he] at this
  exact this

theorem exists_getD_of_mem : ∀ (l : Str) (x : Nat), x ∈ l →
    ∃ k, k < l.length ∧ l.getD k 0 = x := by
  intro l
  induction l with
  | nil => intro x h; simp at h
  | cons c l ih =>
      intro x h
      rcases List.mem_cons.mp h with h | h
      · exact ⟨0, by simp, h.symm⟩
      · obtain ⟨k, hk, he⟩ := ih x h
        exact ⟨k + 1, by simp; omega, by rw [List.getD_cons_succ]; exact he⟩

theorem lineStartAt_le (text : Str) (p : Nat) : lineStartAt text p ≤ p + 1 := by
  rw [lineStartAt]
  omega

theorem lineStartAt_no_nl (text : Str) (p : Nat) (hp : p < text.length) :
    ∀ i, lineStartAt text p ≤ i → i ≤ p → text.getD i 0 ≠ 10 := by
  intro i hi1 hi2
  rw [lineStartAt] at hi1
  have htl : (text.take (p + 1)).length = p + 1 := by
    rw [List.length_take]; omega
  obtain ⟨tw1, tw2, tw3⟩ := takeWhile_char (fun c => c != 10) (text.take (p + 1)).reverse
  rw [List.length_reverse, htl] at tw1 tw3
  set L := ((text.take (p + 1)).reverse.takeWhile (fun c => c != 10)).length with hL
  have hk : p - i < L := by omega
  have hq := tw2 (p - i) hk
  rw [getD_reverse _ _ (by rw [htl]; omega), htl] at hq
  have he : p + 1 - 1 - (p - i) = i := by omega
  rw [he, getD_take _ _ _ (by omega)] at hq
  simp only [bne_iff_ne, ne_eq, decide_eq_true_eq] at hq
  exact hq

theorem lineStartAt_is_start (text : Str) (p : Nat) (hp : p < text.length)
    (h0 : 0 < lineStartAt text p) :
    text.getD (lineStartAt text p - 1) 0 = 10 := by
  rw [lineStartAt] at h0 ⊢
  have htl : (text.take (p + 1)).length = p + 1 := by
    rw [List.length_take]; omega
  obtain ⟨tw1, tw2, tw3⟩ := takeWhile_char (fun c => c != 10) (text.take (p + 1)).reverse
  rw [List.length_reverse, htl] at tw1 tw3
  set L := ((text.take (p + 1)).reverse.takeWhile (fun c => c != 10)).length with hL
  have hq := tw3 (by omega)
  rw [getD_reverse _ _ (by rw [htl]; omega), htl] at hq
  have he : p + 1 - 1 - L = p + 1 - L - 1 := by omega
  rw [he, getD_take _ _ _ (by omega)] at hq
  simp only [bne_eq_false_iff_eq] at hq
  exact hq

theorem lineStartAt_unique (text : Str) (p : Nat) (hp : p < text.length) (ls : Nat)
    (h1 : ls ≤ p + 1)
    (h2 : ls = 0 ∨ (0 < ls ∧ text.getD (ls - 1) 0 = 10))
    (h3 : ∀ i, ls ≤ i → i ≤ p → text.getD i 0 ≠ 10) :
    ls = lineStartAt text p := by
  rcases Nat.lt_trichotomy ls (lineStartAt text p) with h | h | h
  · exfalso
    have h0 : 0 < lineStartAt text p := by omega
    have hnl := lineStartAt_is_start text p hp h0
    have hle := lineStartAt_le text p
    exact h3 (lineStartAt text p - 1) (by omega) (by omega) hnl
  · exact h
  · exfalso
    rcases h2 with h2 | ⟨h2a, h2b⟩
    · omega
    · exact lineStartAt_no_nl text p hp (ls - 1) (by omega) (by omega) h2b

theorem count_take_eq_of_no_nl (text : Str) (a b : Nat) (hab : a ≤ b)
    (hb : b ≤ text.length)
    (h : ∀ i, a ≤ i → i < b → text.getD i 0 ≠ 10) :
    (text.take b).count 10 = (text.take a).count 10 := by
  have hsplit : text.take b = text.take a ++ (text.take b).drop a := by
    have h0 := (List.take_append_drop a (text.take b)).symm
    rw [List.take_take, min_eq_left hab] at h0
    exact h0
  rw [hsplit, List.count_append]
  have hz : ((text.take b).drop a).count 10 = 0 := by
    rw [List.count_eq_zero]
    intro hmem
    obtain ⟨k, hk, he⟩ := exists_getD_of_mem _ _ hmem
    rw [List.length_drop, List.length_take] at hk
    rw [getD_drop, getD_take _ _ _ (by omega)] at he
    exact h (a + k) (by omega) (by omega) he
  omega

theorem lineNumberAt_eq (text : Str) (p : Nat) (hp : p < text.length) :
    lineNumberAt text p = 1 + (text.take (lineStartAt text p)).count 10 := by
  rw [lineNumberAt]
  have h := count_take_eq_of_no_nl text (lineStartAt text p) (p + 1)
    (lineStartAt_le text p) (by omega)
    (fun i hi1 hi2 => lineStartAt_no_nl text p hp i hi1 (by omega))
  omega

theorem advanceLineAux_correct (text : Str) (p : Nat) (hp : p < text.length) :
    ∀ (fuel ln ls : Nat), p + 1 - ls < fuel → ls ≤ p + 1 →
    ln = 1 + (text.take ls).count 10 →
    (ls = 0 ∨ (0 < ls ∧ text.getD (ls - 1) 0 = 10)) →
    advanceLineAux text p fuel ln ls = (lineNumberAt text p, lineStartAt text p) := by
  intro fuel
  induction fuel with
  | zero => intro ln ls hf; omega
  | succ fuel ih =>
      intro ln ls hf hle hln hst
      rw [advanceLineAux]
      by_cases hls : ls ≤ p
      · rw [if_pos hls]
        cases hnl : findNl text ls with
        | none =>
            have hno := findNl_none text ls hnl
            have hls2 : ls = lineStartAt text p :=
              lineStartAt_unique text p hp ls hle hst
                (fun i hi1 hi2 => hno i hi1 (by omega))
            rw [Prod.mk.injEq]
            refine ⟨?_, hls2⟩
            rw [lineNumberAt_eq text p hp, ← hls2]
            exact hln
        | some nl =>
            obtain ⟨hnl1, hnl2, hnl3, hnl4⟩ := findNl_some text ls nl hnl
            dsimp only
            by_cases hpn : p < nl
            · rw [if_pos hpn]
              have hls2 : ls = lineStartAt text p :=
                lineStartAt_unique text p hp ls hle hst
                  (fun i hi1 hi2 => hnl4 i hi1 (by omega))
              rw [Prod.mk.injEq]
              refine ⟨?_, hls2⟩
              rw [lineNumberAt_eq text p hp, ← hls2]
              exact hln
            · rw [if_neg hpn]
              have hcnt : (text.take nl).count 10 = (text.take ls).count 10 :=
                count_take_eq_of_no_nl text ls nl hnl1 (by omega) hnl4
              have hstep : (text.take (nl + 1)).count 10 = (text.take nl).count 10 + 1 := by
                rw [take_succ_getD text nl hnl2, List.count_append, hnl3]
                simp
              exact ih (ln + 1) (nl + 1) (by omega) (by omega)
                (by rw [hstep, hcnt]; omega)
                (Or.inr ⟨by omega, by simpa using hnl3⟩)
      · rw [if_neg hls]
        have hls1 : ls = p + 1 := by omega
        have hls2 : ls = lineStartAt text p :=
          lineStartAt_unique text p hp ls hle hst (fun i hi1 hi2 => by omega)
        rw [Prod.mk.injEq]
        refine ⟨?_, hls2⟩
        rw [lineNumberAt_eq text p hp, ← hls2]
        exact hln

theorem advanceLine_correct (text : Str) (p ln ls : Nat) (hp : p < text.length)
    (hle : ls ≤ p + 1)
    (hln : ln = 1 + (text.take ls).count 10)
    (hst : ls = 0 ∨ (0 < ls ∧ text.getD (ls - 1) 0 = 10)) :
    advanceLine text p ln ls = (lineNumberAt text p, lineStartAt text p) :=
  advanceLineAux_correct text p hp (p + 2) ln ls (by omega) hle hln hst

theorem matchTokenAt_len (l : Str) :
    (matchTokenAt l).1.length + (matchTokenAt l).2.length = l.length := by
  rw [matchTokenAt]
  have h1 := lenTD isAlphaB l
  by_cases h39 : (l.dropWhile isAlphaB).headD 0 = 39
  · rw [if_pos h39]
    by_cases hb : ((l.dropWhile isAlphaB).drop 1).takeWhile isAlphaB |>.isEmpty
    · rw [if_pos hb]
      exact h1
    · rw [if_neg hb]
      have h2 := lenTD isAlphaB ((l.dropWhile isAlphaB).drop 1)
      have hr : (l.dropWhile isAlphaB) ≠ [] := by
        intro hc
        rw [hc] at h39
        simp at h39
      have hrl : 1 ≤ (l.dropWhile isAlphaB).length := by
        cases hh : l.dropWhile isAlphaB with
        | nil => exact absurd hh hr
        | cons c r => simp
      simp only [List.length_append, List.length_cons, List.length_drop] at *
      omega
  · rw [if_neg h39]
    exact h1

theorem matchTokenAt_pos (l : Str) (h : isAlphaB (l.headD 0) = true) :
    1 ≤ (matchTokenAt l).1.length := by
  cases l with
  | nil => exact absurd h (by decide)
  | cons c rest =>
      have hc : isAlphaB c = true := h
      rw [matchTokenAt]
      by_cases h39 : ((c :: rest).dropWhile isAlphaB).headD 0 = 39
      · rw [if_pos h39]
        by_cases hb : (((c :: rest).dropWhile isAlphaB).drop 1).takeWhile isAlphaB |>.isEmpty
        · rw [if_pos hb]
          simp [List.takeWhile_cons, hc]
        · rw [if_neg hb]
          simp [List.takeWhile_cons, hc]
      · rw [if_neg h39]
        simp [List.takeWhile_cons, hc]

theorem tokenizeAux_spec : ∀ (fuel : Nat) (l : Str) (pos : Nat), l.length ≤ fuel →
    (∀ m ∈ tokenizeAux fuel l pos,
        pos ≤ m.2 ∧ m.2 + m.1.length ≤ pos + l.length ∧ 1 ≤ m.1.length) ∧
      List.Pairwise (fun a b : Str × Nat => a.2 < b.2) (tokenizeAux fuel l pos) := by
  intro fuel
  induction fuel with
  | zero =>
      intro l pos hf
      rw [tokenizeAux]
      exact ⟨by simp, by simp⟩
  | succ fuel ih =>
      intro l pos hf
      cases l with
      | nil =>
          rw [tokenizeAux]
          exact ⟨by simp, by simp⟩
      | cons c rest =>
          rw [tokenizeAux]
          by_cases hc : isAlphaB c = true
          · rw [if_pos hc]
            have hpos : 1 ≤ (matchTokenAt (c :: rest)).1.length :=
              matchTokenAt_pos (c :: rest) (by simpa using hc)
            have hlen := matchTokenAt_len (c :: rest)
            have hrest : (matchTokenAt (c :: rest)).2.length ≤ fuel := by
              simp only [List.length_cons] at hlen hf
              omega
            obtain ⟨ihm, ihp⟩ := ih (matchTokenAt (c :: rest)).2
              (pos + (matchTokenAt (c :: rest)).1.length) hrest
            constructor
            · intro m hm
              rcases List.mem_cons.mp hm with hm | hm
              · subst hm
                refine ⟨le_rfl, ?_, hpos⟩
                simp only [List.length_cons] at hlen ⊢
                omega
              · obtain ⟨hm1, hm2, hm3⟩ := ihm m hm
                refine ⟨by omega, ?_, hm3⟩
                simp only [List.length_cons] at hlen ⊢
                omega
            · rw [List.pairwise_cons]
              refine ⟨?_, ihp⟩
              intro m hm
              obtain ⟨hm1, _, _⟩ := ihm m hm
              simp only
              omega
          · rw [if_neg hc]
            obtain ⟨ihm, ihp⟩ := ih rest (pos + 1) (by simp at hf; omega)
            refine ⟨?_, ihp⟩
            intro m hm
            obtain ⟨hm1, hm2, hm3⟩ := ihm m hm
            refine ⟨by omega, ?_, hm3⟩
            simp only [List.length_cons]
            omega

theorem ewlAux_closed (text : Str) : ∀ (ms : List (Str × Nat)) (ln ls : Nat),
    (∀ m ∈ ms, m.2 < text.length) →
    List.Pairwise (fun a b : Str × Nat => a.2 ≤ b.2) ms →
    (∀ m ∈ ms, ls ≤ m.2 + 1) →
    ln = 1 + (text.take ls).count 10 →
    (ls = 0 ∨ (0 < ls ∧ text.getD (ls - 1) 0 = 10)) →
    ewlAux text ms ln ls = ms.filterMap (fun m =>
      if shouldIgnoreWord m.1 then none
      else some (normalizeWord m.1, lineNumberAt text m.2, m.2 - lineStartAt text m.2 + 1)) := by
  intro ms
  induction ms with
  | nil => intro ln ls _ _ _ _ _; rfl
  | cons m rest ih =>
      intro ln ls hlen hsort hls hln hst
      obtain ⟨tok, p⟩ := m
      have hp : p < text.length := hlen (tok, p) (List.mem_cons_self _ _)
      have hadv := advanceLine_correct text p ln ls hp
        (hls (tok, p) (List.mem_cons_self _ _)) hln hst
      rw [List.pairwise_cons] at hsort
      obtain ⟨hhead, hsort2⟩ := hsort
      have hrest := ih (lineNumberAt text p) (lineStartAt text p)
        (fun m hm => hlen m (List.mem_cons_of_mem _ hm)) hsort2
        (fun m hm => le_trans (lineStartAt_le text p) (by
          have := hhead m hm
          omega))
        (lineNumberAt_eq text p hp)
        (by
          by_cases h0 : 0 < lineStartAt text p
          · exact Or.inr ⟨h0, lineStartAt_is_start text p hp h0⟩
          · exact Or.inl (by omega))
      rw [ewlAux, hadv, List.filterMap_cons]
      by_cases hig : shouldIgnoreWord tok = true
      · rw [if_pos hig]
        simp only [hig, if_pos]
        exact hrest
      · rw [if_neg hig]
        simp only [Bool.not_eq_true] at hig
        simp only [hig]
        rw [hrest]
        rfl

/-- Claim C8: extract_words_with_lines on "Hello, world!\nFoo bar." yields
exactly [("hello",1,1), ("world",1,8), ("foo",2,1), ("bar",2,5)]; and in
general every emitted token carries the line number at its match position,
the column p - line_start + 1 computed from the closed-form line start at
p, and tokens are emitted in text order (match positions strictly
increase). -/
theorem C8_tokenization_lines_columns :
    extractWordsWithLines (strM "Hello, world!\nFoo bar.") =
      [(strM "hello", 1, 1), (strM "world", 1, 8), (strM "foo", 2, 1), (strM "bar", 2, 5)] ∧
    ∀ text : Str,
      extractWordsWithLines text = (tokenize text).filterMap (fun m =>
        if shouldIgnoreWord m.1 then none
        else some (normalizeWord m.1, lineNumberAt text m.2, m.2 - lineStartAt text m.2 + 1)) ∧
      List.Pairwise (fun a b : Str × Nat => a.2 < b.2) (tokenize text) := by
  constructor
  · decide
  · intro text
    obtain ⟨hmem, hpw⟩ := tokenizeAux_spec text.length text 0 le_rfl
    constructor
    · rw [extractWordsWithLines]
      exact ewlAux_closed text (tokenize text) 1 0
        (fun m hm => by
          obtain ⟨h1, h2, h3⟩ := hmem m hm
          omega)
        (hpw.imp (fun h => le_of_lt h))
        (fun m hm => by omega)
        (by simp)
        (Or.inl rfl)
    · exact hpw
